import Mathlib

/-!
# A verification model of the wasmoon value bridge

Shallow embedding of `src/thread.ts` and `src/global.ts` of the
`timstableford/wasmoon` fork.  The guest VM (Lua compiled to wasm) is treated
as a black-box stack machine, exactly as the specification prescribes: we model
its state (per-thread stacks, a table/userdata heap, named metatables, the
registry) and the fixed primitive set the two source files call
(`lua_push*`, `lua_settable`, `lua_setmetatable`, `luaL_getmetatable`,
`lua_newuserdatauv`, `luaL_ref`/`lua_rawgeti`, `ref`/`unref`/`getRef`,
`addFunction`/`removeFunction`, ...).  Host values are modelled by `JSValue`;
host object graphs (which may be cyclic or share substructure) are given by a
finite environment mapping node ids to their fields, since a Lean inductive
value cannot itself be cyclic.  Recursive conversions are written with
explicit fuel and we prove fuel adequacy, which is exactly the termination
content of the specification's cycle-guard claims.

The modules `types.ts`, `pointer.ts`, `decoration.ts`, `multireturn.ts` and
`luawasm.ts` imported by the two source files are not part of the provided
sources; the enumerations and primitives they declare are modelled here from
the specification's black-box description of the VM (standard Lua C API
conventions).  `Decoration` wrapper values are outside the modelled value
universe, so `getValueDecorations` always yields empty decorations, which is
faithful for every value the model can denote.
-/

namespace Wasmoon

/-- Host (JavaScript) values exchanged over the bridge.  Objects and arrays
are represented by a node id into a finite host-object graph (`Env`), so that
cyclic and shared structures are expressible.  `bigintV` and `symbolV` stand
for the JS types `typeof` reports as `bigint` and `symbol`, which have no
branch in `pushValue`. -/
inductive JSValue where
  | undef
  | jsNull
  | num (q : ℚ)
  | str (s : String)
  | boolean (b : Bool)
  | bigintV (n : ℤ)
  | symbolV (n : ℕ)
  | obj (id : ℕ)
  | threadV (addr : ℕ)
  | promiseV (id : ℕ)
  | funcV (id : ℕ)
deriving Repr, DecidableEq

/-- The data of one host object node: either an array (`Array.isArray`) with
its element list, or a plain object with its enumerable string-keyed
fields (the order of `for key in target`). -/
inductive ObjData where
  | arr (elems : List JSValue)
  | plain (fields : List (String × JSValue))
deriving Repr, DecidableEq

/-- The host-side environment: the finite host object graph, and the JS
string coercion used when a value appears as a property key of the `_done`
record (`Record<string, number>` in the source; JS coerces every key to a
string, e.g. a plain object to `"[object Object]"`).  It is kept abstract so
every theorem holds for an arbitrary coercion, collisions included. -/
structure Env where
  objs : List (ℕ × ObjData)
  strCoerce : JSValue → String

/-- Guest (Lua) values as they sit in stack slots.  Tables and userdata live
in the heap of a `LuaState` and are referred to by id; `cfunction` is a
C closure registered through `addFunction`; the bridge only ever associates
one upvalue with a closure (`lua_pushcclosure(..., 1)` absorbing the
function-reference userdata), recorded here by that userdata's id;
`luafunc` is a guest-defined function. -/
inductive LuaValue where
  | nil
  | integer (n : ℤ)
  | number (q : ℚ)
  | str (s : String)
  | boolean (b : Bool)
  | table (id : ℕ)
  | userdata (id : ℕ)
  | thread (addr : ℕ)
  | cfunction (ptr : ℕ) (upvalue : Option ℕ)
  | luafunc (id : ℕ)
deriving Repr, DecidableEq

/-- The guest type tags returned by `lua_type` (`LuaType` in the missing
`types.ts`; standard Lua enumeration, `none` being `LUA_TNONE` for an
invalid index). -/
inductive LuaType where
  | none
  | nil
  | boolean
  | lightuserdata
  | number
  | string
  | table
  | function
  | userdata
  | thread
deriving Repr, DecidableEq

/-- A guest userdata: the native pointer written into its payload via
`module.setValue(userDataPointer, pointer, '*')`, and its metatable. -/
structure UserDataObj where
  stored : ℕ
  meta : Option ℕ
deriving Repr, DecidableEq

/-- A guest table: its entries in traversal order, and its metatable. -/
structure TableObj where
  entries : List (LuaValue × LuaValue)
  meta : Option ℕ
deriving Repr, DecidableEq

/-- The black-box VM state plus the host-side bookkeeping of `luawasm.ts`:
per-thread value stacks (bottom first), the table and userdata heaps (sharing
one address counter so `lua_topointer` is injective across them), the named
metatables created by `luaL_newmetatable`, the ref registry of
`ref`/`unref`/`getRef`, the `LUA_REGISTRYINDEX` slots minted by `luaL_ref`,
and the table of live native callables minted by `module.addFunction`. -/
structure LuaState where
  threadStacks : List (ℕ × List LuaValue)
  nextThread : ℕ
  tables : List (ℕ × TableObj)
  userdatas : List (ℕ × UserDataObj)
  nextAddr : ℕ
  metatables : List (String × ℕ)
  refs : List (ℕ × JSValue)
  nextRef : ℕ
  registry : List (ℕ × LuaValue)
  nextRegistry : ℕ
  funcs : List ℕ
  nextFunc : ℕ
deriving Repr, DecidableEq

namespace LuaState

/-- The stack of the thread at `addr` (a thread that was never touched has an
empty stack). -/
def getStack (st : LuaState) (addr : ℕ) : List LuaValue :=
  (st.threadStacks.lookup addr).getD []

/-- Replace the stack of the thread at `addr`. -/
def setStack (st : LuaState) (addr : ℕ) (s : List LuaValue) : LuaState :=
  { st with threadStacks := (addr, s) :: st.threadStacks.filter (fun p => p.1 ≠ addr) }

/-- `lua_gettop`. -/
def gettop (st : LuaState) (addr : ℕ) : ℕ :=
  (st.getStack addr).length

/-- Push one value on the stack of `addr`. -/
def push (st : LuaState) (addr : ℕ) (v : LuaValue) : LuaState :=
  st.setStack addr (st.getStack addr ++ [v])

/-- `lua_pop(L, count)`. -/
def popN (st : LuaState) (addr : ℕ) (count : ℕ) : LuaState :=
  st.setStack addr ((st.getStack addr).take ((st.getStack addr).length - count))

/-- Resolve a (possibly negative, 1-based) Lua stack index to the slot value;
`none` for an invalid index (which `lua_type` reports as `LUA_TNONE`). -/
def slotAt (st : LuaState) (addr : ℕ) (idx : ℤ) : Option LuaValue :=
  let s := st.getStack addr
  if 0 < idx then
    s.get? (idx.toNat - 1)
  else if idx < 0 ∧ (-idx).toNat ≤ s.length then
    s.get? (s.length - (-idx).toNat)
  else
    none

/-- Look a table up in the heap. -/
def tableAt (st : LuaState) (id : ℕ) : Option TableObj :=
  st.tables.lookup id

/-- Overwrite a table in the heap. -/
def setTable (st : LuaState) (id : ℕ) (t : TableObj) : LuaState :=
  { st with tables := (id, t) :: st.tables.filter (fun p => p.1 ≠ id) }

/-- Look a userdata up in the heap. -/
def userdataAt (st : LuaState) (id : ℕ) : Option UserDataObj :=
  st.userdatas.lookup id

/-- Overwrite a userdata in the heap. -/
def setUserdata (st : LuaState) (id : ℕ) (u : UserDataObj) : LuaState :=
  { st with userdatas := (id, u) :: st.userdatas.filter (fun p => p.1 ≠ id) }

end LuaState

/-- `lua_type` on a resolved slot. -/
def luaTypeOf : Option LuaValue → LuaType
  | Option.none => LuaType.none
  | some LuaValue.nil => LuaType.nil
  | some (LuaValue.integer _) => LuaType.number
  | some (LuaValue.number _) => LuaType.number
  | some (LuaValue.str _) => LuaType.string
  | some (LuaValue.boolean _) => LuaType.boolean
  | some (LuaValue.table _) => LuaType.table
  | some (LuaValue.userdata _) => LuaType.userdata
  | some (LuaValue.thread _) => LuaType.thread
  | some (LuaValue.cfunction _ _) => LuaType.function
  | some (LuaValue.luafunc _) => LuaType.function

/-- `lua_topointer`: the native address of a heap value (tables and userdata
draw ids from one counter, threads are their own address; other values have
no pointer and yield 0, standing for NULL). -/
def luaTopointer : Option LuaValue → ℕ
  | some (LuaValue.table id) => id
  | some (LuaValue.userdata id) => id
  | some (LuaValue.thread addr) => addr
  | _ => 0

/-- Outcome of a bridge operation: a value, a thrown `Error` (its message and
the VM state at the moment of the throw), or exhaustion of the modelling fuel
(never reached for adequate fuel). -/
inductive Res (α : Type) where
  | ok (a : α)
  | err (msg : String) (st : LuaState)
  | fuelOut
deriving Repr, DecidableEq

/-- Sequencing of bridge operations: a thrown error or fuel exhaustion
short-circuits, mirroring JS exception propagation. -/
def Res.bind {α β : Type} : Res α → (α → Res β) → Res β
  | Res.ok a, f => f a
  | Res.err m s, _ => Res.err m s
  | Res.fuelOut, _ => Res.fuelOut

theorem Res.bind_eq_ok {α β : Type} {x : Res α} {f : α → Res β} {b : β} :
    x.bind f = Res.ok b ↔ ∃ a, x = Res.ok a ∧ f a = Res.ok b := by
  cases x <;> simp [Res.bind]

theorem Res.bind_ne_fuelOut {α β : Type} {x : Res α} {f : α → Res β}
    (hx : x ≠ Res.fuelOut) (hf : ∀ a, f a ≠ Res.fuelOut) : x.bind f ≠ Res.fuelOut := by
  cases x with
  | ok a => exact hf a
  | err m s => simp [Res.bind]
  | fuelOut => exact absurd rfl hx

/- The three metatable names of `LuaMetatables` (declared in the missing
`types.ts`; the concrete strings are irrelevant, only their distinctness). -/
namespace LuaMetatables

def FunctionReference : String := "function_reference"

def JsReference : String := "js_reference"

def Promise : String := "promise"

end LuaMetatables

namespace LuaState

/-- `cmodule.ref(object)`: store a host value in the ref registry and return
the freshly minted native pointer. -/
def cmRef (st : LuaState) (v : JSValue) : LuaState × ℕ :=
  ({ st with refs := (st.nextRef, v) :: st.refs, nextRef := st.nextRef + 1 }, st.nextRef)

/-- `cmodule.unref(pointer)`: retire a ref registry entry. -/
def cmUnref (st : LuaState) (pointer : ℕ) : LuaState :=
  { st with refs := st.refs.filter (fun p => p.1 ≠ pointer) }

/-- `cmodule.getRef(pointer)`. -/
def cmGetRef (st : LuaState) (pointer : ℕ) : Option JSValue :=
  st.refs.lookup pointer

/-- `module.addFunction(...)`: mint a live native callable pointer.  The
JS closure behind the pointer is modelled separately where a claim needs its
behaviour. -/
def addFunction (st : LuaState) : LuaState × ℕ :=
  ({ st with funcs := st.nextFunc :: st.funcs, nextFunc := st.nextFunc + 1 }, st.nextFunc)

/-- `module.removeFunction(pointer)`. -/
def removeFunction (st : LuaState) (pointer : ℕ) : LuaState :=
  { st with funcs := st.funcs.erase pointer }

/-- `lua_createtable`: allocate a fresh empty table and push it (the two size
hints of the C call do not affect observable behaviour). -/
def lua_createtable (st : LuaState) (addr : ℕ) : LuaState :=
  let tid := st.nextAddr
  ({ st with tables := (tid, ⟨[], none⟩) :: st.tables, nextAddr := st.nextAddr + 1 }).push addr
    (LuaValue.table tid)

/-- `lua_newuserdatauv(addr, PointerSize, 0)` immediately followed by
`module.setValue(userDataPointer, pointer, '*')`: allocate a userdata whose
payload holds `pointer`, and push it. -/
def newUserdataWithPointer (st : LuaState) (addr pointer : ℕ) : LuaState :=
  let uid := st.nextAddr
  ({ st with userdatas := (uid, ⟨pointer, none⟩) :: st.userdatas,
             nextAddr := st.nextAddr + 1 }).push addr (LuaValue.userdata uid)

/-- `luaL_getmetatable(addr, name)`: push the named metatable from the
registry (or nil when it was never created) and report the pushed type. -/
def luaL_getmetatable (st : LuaState) (addr : ℕ) (name : String) : LuaState × LuaType :=
  match st.metatables.lookup name with
  | some mid => (st.push addr (LuaValue.table mid), LuaType.table)
  | none => (st.push addr LuaValue.nil, LuaType.nil)

/-- `lua_setmetatable(addr, idx)`: pop the table on top of the stack and
install it as the metatable of the value at `idx` (resolved while the
metatable is still on the stack, so `-2` is the value right below it). -/
def lua_setmetatable (st : LuaState) (addr : ℕ) (idx : ℤ) : Res LuaState :=
  match st.slotAt addr idx, st.slotAt addr (-1) with
  | some target, some m =>
    let st1 := st.popN addr 1
    let mid : Option ℕ := match m with | LuaValue.table i => some i | _ => none
    match target with
    | LuaValue.table tid =>
      match st1.tableAt tid with
      | some t => Res.ok (st1.setTable tid { t with meta := mid })
      | none => Res.err "setmetatable: no such table" st1
    | LuaValue.userdata uid =>
      match st1.userdataAt uid with
      | some u => Res.ok (st1.setUserdata uid { u with meta := mid })
      | none => Res.err "setmetatable: no such userdata" st1
    | _ => Res.err "setmetatable: value has no metatable slot" st1
  | _, _ => Res.err "setmetatable: invalid index" st

/-- `lua_settable(addr, tIdx)`: with the stack ending `[..., key, value]`,
pop both and set `table[key] = value` for the table at index `tIdx`. -/
def lua_settable (st : LuaState) (addr : ℕ) (tIdx : ℤ) : Res LuaState :=
  match st.slotAt addr (-1), st.slotAt addr (-2), st.slotAt addr tIdx with
  | some v, some k, some (LuaValue.table tid) =>
    match st.tableAt tid with
    | some t =>
      let entries' :=
        if (t.entries.lookup k).isSome then
          t.entries.map (fun p => if p.1 = k then (k, v) else p)
        else
          t.entries ++ [(k, v)]
      Res.ok ((st.setTable tid { t with entries := entries' }).popN addr 2)
    | none => Res.err "settable: no such table" st
  | _, _, _ => Res.err "settable: not a table" st

/-- `lua_pushcclosure(addr, ptr, 1)`: pop the single upvalue (always the
function-reference userdata in this codebase) and push the C closure. -/
def lua_pushcclosure (st : LuaState) (addr ptr : ℕ) : LuaState :=
  let up : Option ℕ := match st.slotAt addr (-1) with
    | some (LuaValue.userdata uid) => some uid
    | _ => none
  (st.popN addr 1).push addr (LuaValue.cfunction ptr up)

end LuaState

/-- `typeof target` for the modelled host values (note `typeof null` is
`"object"` in JS; the source handles `null` by the explicit
`target === null` test in the first branch). -/
def typeofJS : JSValue → String
  | JSValue.undef => "undefined"
  | JSValue.jsNull => "object"
  | JSValue.num _ => "number"
  | JSValue.str _ => "string"
  | JSValue.boolean _ => "boolean"
  | JSValue.bigintV _ => "bigint"
  | JSValue.symbolV _ => "symbol"
  | JSValue.obj _ => "object"
  | JSValue.threadV _ => "object"
  | JSValue.promiseV _ => "object"
  | JSValue.funcV _ => "function"

/-- The `_done` record of `pushValue`'s options: a `Record<string, number>`
from the JS string coercion of a host object to the stack slot of the guest
table already created for it. -/
abbrev DoneMap := List (String × ℕ)

/-- The `options` argument of `pushValue`.  `done = none` models an options
object without a `_done` field (the map is created on demand by
`options._done ??= ...` in the table branch and shared by reference with
nested calls, which the model mirrors by threading it through results). -/
structure PushOpts where
  done : Option DoneMap
  reference : Bool
  doAwait : Bool
  raw : Bool
deriving Repr, DecidableEq

/-- The options value for a plain `pushValue(v)` call. -/
def PushOpts.none : PushOpts := ⟨Option.none, false, false, false⟩

/-- The truthiness test `options?._done?.[target]` (a recorded slot of `0`
would be falsy, though slots are always `getTop() + 1 ≥ 1`). -/
def doneLookup (d : Option DoneMap) (key : String) : Option ℕ :=
  match d with
  | Option.none => Option.none
  | some m =>
    match m.lookup key with
    | some 0 => Option.none
    | some s => some s
    | Option.none => Option.none

/-- JS property assignment `options._done[target] = table`. -/
def doneInsert (d : DoneMap) (key : String) (slot : ℕ) : DoneMap :=
  (key, slot) :: d.filter (fun p => p.1 ≠ key)

/-- `Thread.createAndPushFunctionReference` (`thread.ts:496-510`): allocate a
userdata holding the callable pointer, tag it with the `FunctionReference`
metatable, or pop the two pushed values and throw when the metatable was
never installed. -/
def createAndPushFunctionReference (st : LuaState) (addr pointer : ℕ) : Res LuaState :=
  let st1 := st.newUserdataWithPointer addr pointer
  match st1.luaL_getmetatable addr LuaMetatables.FunctionReference with
  | (st2, LuaType.nil) =>
    Res.err "metatable not found: function_reference" (st2.popN addr 2)
  | (st2, _) => st2.lua_setmetatable addr (-2)

/-- `Thread.createAndPushJsReference` (`thread.ts:512-528`): take a registry
ref on the host value, wrap the pointer in a userdata tagged `JsReference`;
on a missing metatable the ref is released, the two pushed values popped and
an error thrown (whose message names `FunctionReference` — a slip kept
faithfully from the source). -/
def createAndPushJsReference (st : LuaState) (addr : ℕ) (object : JSValue) : Res LuaState :=
  let (st1, pointer) := st.cmRef object
  let st2 := st1.newUserdataWithPointer addr pointer
  match st2.luaL_getmetatable addr LuaMetatables.JsReference with
  | (st3, LuaType.nil) =>
    Res.err "metatable not found: function_reference" ((st3.cmUnref pointer).popN addr 2)
  | (st3, _) => st3.lua_setmetatable addr (-2)

/-- The `for (let i = 0; i < target.length; i++)` loop of the array branch of
`pushValue` (`thread.ts:214-219`): push the 1-based integer key with fresh
options, push the element with the shared `_done` record, then
`lua_settable` into the slot recorded for the new table.  `push` is the
recursive `pushValue` call at the remaining fuel. -/
def pushArrayAux (push : LuaState → ℕ → JSValue → PushOpts → Res (LuaState × Option DoneMap))
    (addr : ℕ) (tableSlot : ℕ) :
    LuaState → List JSValue → ℕ → DoneMap → Res (LuaState × DoneMap)
  | st, [], _, d => Res.ok (st, d)
  | st, v :: rest, i, d =>
    (push st addr (JSValue.num (i + 1)) PushOpts.none).bind fun p1 =>
      (push p1.1 addr v ⟨some d, false, false, false⟩).bind fun p2 =>
        (p2.1.lua_settable addr (tableSlot : ℤ)).bind fun st3 =>
          pushArrayAux push addr tableSlot st3 rest (i + 1) (p2.2.getD d)

/-- The `for (const key in target)` loop of the plain-object branch of
`pushValue` (`thread.ts:223-228`). -/
def pushObjAux (push : LuaState → ℕ → JSValue → PushOpts → Res (LuaState × Option DoneMap))
    (addr : ℕ) (tableSlot : ℕ) :
    LuaState → List (String × JSValue) → DoneMap → Res (LuaState × DoneMap)
  | st, [], d => Res.ok (st, d)
  | st, (k, v) :: rest, d =>
    (push st addr (JSValue.str k) PushOpts.none).bind fun p1 =>
      (push p1.1 addr v ⟨some d, false, false, false⟩).bind fun p2 =>
        (p2.1.lua_settable addr (tableSlot : ℤ)).bind fun st3 =>
          pushObjAux push addr tableSlot st3 rest (p2.2.getD d)

/-- `Thread.pushValue` (`thread.ts:159-331`), host value to guest stack, with
explicit fuel bounding the conversion recursion.  The result carries the
state and the `_done` record as left by the call (the source mutates the
record in place and shares it by reference with nested calls).  Notes kept
close to the source:
* `getValueDecorations` is the identity with empty decorations on the
  modelled universe (no `Decoration` values), so the
  `decorations.metatable` attach after the table loops is vacuous here;
* the `options?._done?.[target]` hit copies the recorded slot with
  `lua_pushvalue` (copying an invalid slot is modelled as nil);
* `lua_pushthread(target.address)` pushes the thread onto the *target*
  thread's own stack;
* the unsupported-type branch throws before any state mutation. -/
def pushValueFuel (env : Env) : ℕ → LuaState → ℕ → JSValue → PushOpts →
    Res (LuaState × Option DoneMap)
  | 0, _, _, _, _ => Res.fuelOut
  | Nat.succ fuel, st, addr, value, options =>
    let target := value
    match doneLookup options.done (env.strCoerce target) with
    | some slot =>
      Res.ok (st.push addr ((st.slotAt addr (slot : ℤ)).getD LuaValue.nil), options.done)
    | Option.none =>
      if options.reference then
        (createAndPushJsReference st addr value).bind fun st1 => Res.ok (st1, options.done)
      else
        match target with
        | JSValue.undef => Res.ok (st.push addr LuaValue.nil, options.done)
        | JSValue.jsNull => Res.ok (st.push addr LuaValue.nil, options.done)
        | JSValue.num q =>
          -- Number.isInteger(target) ? lua_pushinteger : lua_pushnumber
          Res.ok (st.push addr (if q.isInt then LuaValue.integer q.num else LuaValue.number q),
            options.done)
        | JSValue.str s => Res.ok (st.push addr (LuaValue.str s), options.done)
        | JSValue.boolean b => Res.ok (st.push addr (LuaValue.boolean b), options.done)
        | JSValue.threadV a => Res.ok (st.push a (LuaValue.thread a), options.done)
        | JSValue.promiseV _ =>
          -- Promise.resolve(target) === target
          let (st1, pointer) := st.cmRef target
          let st2 := st1.newUserdataWithPointer addr pointer
          match st2.luaL_getmetatable addr LuaMetatables.Promise with
          | (st3, LuaType.nil) =>
            Res.err "metatable not found: promise" ((st3.cmUnref pointer).popN addr 2)
          | (st3, _) =>
            (st3.lua_setmetatable addr (-2)).bind fun st4 => Res.ok (st4, options.done)
        | JSValue.obj oid =>
          let table := st.gettop addr + 1
          let d1 := doneInsert (options.done.getD []) (env.strCoerce target) table
          match (env.objs.lookup oid).getD (ObjData.plain []) with
          | ObjData.arr elems =>
            let st1 := st.lua_createtable addr
            (pushArrayAux (pushValueFuel env fuel) addr table st1 elems 0 d1).bind fun p =>
              Res.ok (p.1, some p.2)
          | ObjData.plain fields =>
            let st1 := st.lua_createtable addr
            (pushObjAux (pushValueFuel env fuel) addr table st1 fields d1).bind fun p =>
              Res.ok (p.1, some p.2)
        | JSValue.funcV _ =>
          let (st1, pointer) := st.addFunction
          (createAndPushFunctionReference st1 addr pointer).bind fun st2 =>
            Res.ok (st2.lua_pushcclosure addr pointer, options.done)
        | JSValue.bigintV _ => Res.err "The type bigint is not supported by Lua" st
        | JSValue.symbolV _ => Res.err "The type symbol is not supported by Lua" st

/-- A host value as produced by `getValue` (guest to host).  Converted guest
tables become nodes of a `HostHeap` (JS mutates one object in place, so the
result graph may be cyclic and is represented by ids, like `Env`);
`jsFunc` is the async wrapper closing over a registry ref (its behaviour is
modelled by `jsFuncModel`); `fromRegistry` is a host value recovered through
`getRef`; `ptr` is the opaque `Pointer` wrapper of `pointer.ts`. -/
inductive HostRes where
  | undef
  | jsNull
  | num (q : ℚ)
  | str (s : String)
  | boolean (b : Bool)
  | objRef (node : ℕ)
  | jsFunc (ref : ℕ)
  | threadW (addr : ℕ)
  | ptr (p : ℕ)
  | fromRegistry (v : JSValue)
deriving Repr, DecidableEq

/-- The host objects materialized by one `getValue` conversion: node id to
the `table[key] = value` assignments made on it, in order.  (JS would coerce
each key to a property key on assignment; the model keeps the converted
key.) -/
structure HostHeap where
  objs : List (ℕ × List (HostRes × HostRes))
  next : ℕ
deriving Repr, DecidableEq

/-- The `done` record of `getTableValue`: native table pointer to the host
object already being built for it (JS coerces the numeric pointer to a string
property key, injectively, so the key is kept as the number). -/
abbrev GetDone := List (ℕ × HostRes)

/-- The `options` of `getValue` other than `_done` (which is threaded
explicitly).  `sync` is declared in the source's option type but never read
in `thread.ts`. -/
structure GetOpts where
  raw : Bool
  sync : Bool
deriving Repr, DecidableEq

namespace LuaState

/-- `lua_tonumberx` on a slot.  (The C function would also coerce numeric
strings; no modelled call path reaches that case because the dispatch type
always comes from `lua_type`.) -/
def lua_tonumberx : Option LuaValue → ℚ
  | some (LuaValue.integer n) => (n : ℚ)
  | some (LuaValue.number q) => q
  | _ => 0

/-- `lua_tolstring` on a slot (numbers stringify; other non-strings are not
reached by modelled call paths). -/
def lua_tolstring : Option LuaValue → String
  | some (LuaValue.str s) => s
  | some (LuaValue.integer n) => toString n
  | some (LuaValue.number q) => toString q
  | _ => ""

/-- `Boolean(lua_toboolean(...))`: everything but nil, false and an invalid
index is true. -/
def lua_toboolean : Option LuaValue → Bool
  | some LuaValue.nil => false
  | some (LuaValue.boolean b) => b
  | Option.none => false
  | _ => true

/-- `lua_pushvalue(idx)` then `luaL_ref(LUA_REGISTRYINDEX)` (which pops the
copy): store the value in the registry and mint its integer ref. -/
def luaL_ref (st : LuaState) (lv : LuaValue) : LuaState × ℕ :=
  ({ st with registry := (st.nextRegistry, lv) :: st.registry,
             nextRegistry := st.nextRegistry + 1 }, st.nextRegistry)

/-- `luaL_testudata(idx, name)` followed by `module.getValue(ud, '*')`:
if the slot is a userdata whose metatable is the named one, yield the native
pointer stored in its payload. -/
def testudata (st : LuaState) (lv : Option LuaValue) (name : String) : Option ℕ :=
  match lv with
  | some (LuaValue.userdata uid) =>
    match st.userdataAt uid, st.metatables.lookup name with
    | some u, some mid => if u.meta = some mid then some u.stored else Option.none
    | _, _ => Option.none
  | _ => Option.none

end LuaState

/-- The `while (lua_next(...))` loop of `getTableValue`
(`thread.ts:481-491`): each iteration converts the key (`getValue(-2)`) and
the value (`getValue(-1)`) with the shared `done` record and performs
`table[key] = value`.  The source walks the live stack with `lua_next` (and
the `if (idx < 0) idx--` bookkeeping); the model walks the same entries
directly.  `conv` is the recursive `getValue` call at the remaining fuel. -/
def getTableFields
    (conv : LuaState → LuaValue → GetDone → HostHeap →
      Res (LuaState × HostRes × GetDone × HostHeap)) :
    LuaState → List (LuaValue × LuaValue) → List (HostRes × HostRes) → GetDone → HostHeap →
      Res (LuaState × List (HostRes × HostRes) × GetDone × HostHeap)
  | st, [], acc, d, h => Res.ok (st, acc, d, h)
  | st, (k, v) :: rest, acc, d, h =>
    (conv st k d h).bind fun q1 =>
      (conv q1.1 v q1.2.2.1 q1.2.2.2).bind fun q2 =>
        getTableFields conv q2.1 rest (acc ++ [(q1.2.1, q2.2.1)]) q2.2.2.1 q2.2.2.2

/-- `Thread.getValue` (`thread.ts:333-438`) dispatched on the guest type of a
resolved slot, and `Thread.getTableValue` (`thread.ts:465-494`) as its table
branch.  State is threaded because the function branch takes a registry ref
(`luaL_ref`); the default branch's diagnostic (`luaL_tolstring` push then
`pop(1)`) is a net no-op on the state.  `stateToThread`'s reuse of the parent
wrapper object is invisible here since only the thread address is
observable. -/
def getHostVal : ℕ → LuaState → LuaType → Option LuaValue → GetOpts → GetDone → HostHeap →
    Res (LuaState × HostRes × GetDone × HostHeap)
  | 0, _, _, _, _, _, _ => Res.fuelOut
  | Nat.succ fuel, st, ty, lv, options, d, h =>
    match ty with
    | LuaType.none => Res.ok (st, HostRes.undef, d, h)
    | LuaType.nil => Res.ok (st, HostRes.jsNull, d, h)
    | LuaType.number => Res.ok (st, HostRes.num (LuaState.lua_tonumberx lv), d, h)
    | LuaType.string => Res.ok (st, HostRes.str (LuaState.lua_tolstring lv), d, h)
    | LuaType.boolean => Res.ok (st, HostRes.boolean (LuaState.lua_toboolean lv), d, h)
    | LuaType.table =>
      if options.raw then
        Res.ok (st, HostRes.ptr (luaTopointer lv), d, h)
      else
        -- getTableValue
        match lv with
        | some (LuaValue.table tid) =>
          let pointer := luaTopointer lv
          match d.lookup pointer with
          | some built => Res.ok (st, built, d, h)
          | Option.none =>
            let node := h.next
            let h1 : HostHeap := ⟨(node, []) :: h.objs, h.next + 1⟩
            let d1 := (pointer, HostRes.objRef node) :: d
            let entries := ((st.tableAt tid).getD ⟨[], Option.none⟩).entries
            (getTableFields
                (fun s' l' d' h' =>
                  getHostVal fuel s' (luaTypeOf (some l')) (some l') ⟨false, false⟩ d' h')
                st entries [] d1 h1).bind fun q =>
              Res.ok (q.1, HostRes.objRef node,
                q.2.2.1, ⟨(node, q.2.1) :: q.2.2.2.objs.filter (fun p => p.1 ≠ node),
                  q.2.2.2.next⟩)
        | _ => Res.err "gettable: not a table" st
    | LuaType.function =>
      if options.raw then
        Res.ok (st, HostRes.ptr (luaTopointer lv), d, h)
      else
        match lv with
        | some f =>
          let (st1, func) := st.luaL_ref f
          -- the returned jsFunc closes over `func`; its behaviour is
          -- modelled by `jsFuncModel`; `functionRegistry?.register` is a
          -- host-side finalization hook with no VM state effect
          Res.ok (st1, HostRes.jsFunc func, d, h)
        | Option.none => Res.err "getvalue: invalid function slot" st
    | LuaType.thread =>
      match lv with
      | some (LuaValue.thread a) =>
        if options.raw then Res.ok (st, HostRes.ptr a, d, h)
        else Res.ok (st, HostRes.threadW a, d, h)
      | _ => Res.err "getvalue: invalid thread slot" st
    | LuaType.userdata =>
      match st.testudata lv LuaMetatables.JsReference with
      | some referencePointer =>
        Res.ok (st, HostRes.fromRegistry ((st.cmGetRef referencePointer).getD JSValue.undef),
          d, h)
      | Option.none =>
        match st.testudata lv LuaMetatables.Promise with
        | some referencePointer =>
          Res.ok (st, HostRes.fromRegistry ((st.cmGetRef referencePointer).getD JSValue.undef),
            d, h)
        | Option.none => Res.ok (st, HostRes.ptr (luaTopointer lv), d, h)
    | _ => Res.ok (st, HostRes.ptr (luaTopointer lv), d, h)

/-- `Thread.getValue`'s entry: the non-zero index guard
(`thread.ts:343-345`), then `type = type || lua_type(...)` (note JS `||`:
an explicit `LuaType.Nil`, numerically 0, is falsy and re-reads the type —
observationally equal since `lua_type` then reports Nil again), then the
dispatch on the slot. -/
def getValueFuel (fuel : ℕ) (st : LuaState) (addr : ℕ) (idx : ℤ) (ty : Option LuaType)
    (options : GetOpts) (d : GetDone) (h : HostHeap) :
    Res (LuaState × HostRes × GetDone × HostHeap) :=
  if idx = 0 then Res.err "index must be non-zero" st
  else
    let slot := st.slotAt addr idx
    let t := match ty with
      | some ty0 => if ty0 = LuaType.nil then luaTypeOf slot else ty0
      | Option.none => luaTypeOf slot
    getHostVal fuel st t slot options d h

/-! ## The custom allocator of the root context (`global.ts:18-48`) -/

/-- `LuaMemoryStats` of `global.ts:6-9`: tracked cumulative usage and the
optional ceiling. -/
structure LuaMemoryStats where
  memoryUsed : ℤ
  memoryMax : Option ℤ
deriving Repr, DecidableEq

/-- The allocator closure installed by the `Global` constructor
(`global.ts:20-41`), as a pure function of the tracked stats and one request
`(pointer, oldSize, newSize)` from the VM.  `reallocResult` is the pointer
`module._realloc` would return for this request (0 for a failed host
allocation); the function returns the updated stats and the pointer handed
back to the VM (0 standing for the JS `null` / a NULL pointer). -/
def allocatorFunction (stats : LuaMemoryStats) (pointer oldSize newSize reallocResult : ℕ) :
    LuaMemoryStats × ℕ :=
  -- if (newSize === 0 && pointer) { _free(pointer); return null }
  if newSize = 0 ∧ pointer ≠ 0 then (stats, 0)
  else
    -- const increasing = Boolean(pointer) || newSize > oldSize
    let increasing : Bool := pointer ≠ 0 ∨ oldSize < newSize
    -- const endMemoryDelta = pointer ? newSize - oldSize : newSize
    let endMemoryDelta : ℤ := if pointer ≠ 0 then (newSize : ℤ) - (oldSize : ℤ) else (newSize : ℤ)
    let endMemory : ℤ := stats.memoryUsed + endMemoryDelta
    -- if (increasing && memoryStats.memoryMax && endMemory > memoryStats.memoryMax) return null
    let overCeiling : Bool := match stats.memoryMax with
      | some m => m ≠ 0 ∧ m < endMemory
      | Option.none => false
    if increasing ∧ overCeiling then (stats, 0)
    else if reallocResult ≠ 0 then ({ stats with memoryUsed := endMemory }, reallocResult)
    else (stats, 0)

/-- A whole sequence of allocator requests (each bundled with its host
realloc outcome), folded over the stats. -/
def allocRun (stats : LuaMemoryStats) (reqs : List (ℕ × ℕ × ℕ × ℕ)) : LuaMemoryStats :=
  reqs.foldl (fun s r => (allocatorFunction s r.1 r.2.1 r.2.2.1 r.2.2.2).1) stats

/-! ## The driving `run` loop (`thread.ts:69-109`) -/

/-- The eventual settlement of the host deferred value wrapped by a yield:
the host async function's promise, chained through
`result.then((asyncResult) => results = asyncResult)`, so a rejection of
`result` is a rejection of the yielded promise. -/
inductive Settled where
  | resolved (v : JSValue)
  | rejected (e : JSValue)
deriving Repr, DecidableEq

/-- One `lua_resume` outcome as `run` observes it: `Ok` with results,
`Yield` carrying what sits on top of the stack (`some` a promise with its
eventual settlement, `none` for the warned non-promise / no-result yields),
or a non-Ok/non-Yield status that `assertOk` turns into a thrown error. -/
inductive ResumeOut where
  | ok (resultCount : ℕ)
  | yielded (resultCount : ℕ) (top : Option Settled)
  | errored (msg : String)
deriving Repr, DecidableEq

/-- How one `run()` call ends, together with how many times it called
`lua_resume` on the guest coroutine. -/
inductive RunOutcome where
  | finished (resultCount : ℕ) (resumes : ℕ)
  | threwError (msg : String) (resumes : ℕ)
  | threwRejection (e : JSValue) (resumes : ℕ)
  | noScript (resumes : ℕ)
deriving Repr, DecidableEq

/-- `Thread.run` (`thread.ts:69-109`) over a script of resume outcomes:
`resume(argCount)`, then while the status is Yield: when `resultCount > 0`
the loop reads the top value (`getValue(-1)`), pops, and — when it is a
promise — `await`s it, so a rejected settlement throws out of `run` at the
`await` and the loop never reaches the next `resume(0)`; a resolved
settlement (or the warned non-promise case) continues with `resume(0)`.
The counter records every `lua_resume` performed. -/
def runFromScript : List ResumeOut → ℕ → RunOutcome
  | [], n => RunOutcome.noScript n
  | step :: rest, n =>
    match step with
    | ResumeOut.ok c => RunOutcome.finished c (n + 1)
    | ResumeOut.errored m => RunOutcome.threwError m (n + 1)
    | ResumeOut.yielded _ top =>
      match top with
      | some (Settled.rejected e) => RunOutcome.threwRejection e (n + 1)
      | _ => runFromScript rest (n + 1)

/-- `run(argCount)` from the start of the script. -/
def runModel (script : List ResumeOut) : RunOutcome :=
  runFromScript script 0

/-! ## The continuation handle lifecycle (`thread.ts:47-53, 269-321`) -/

/-- The continuation-relevant slice of one Execution Context: the
`continuance` field, the set of continuation callables currently registered
with `module.addFunction` (a list used with multiset semantics), and the
next fresh pointer. -/
structure ContState where
  continuance : Option ℕ
  live : List ℕ
  next : ℕ
deriving Repr, DecidableEq

/-- The three events that touch the continuation handle:
`install` is the host-call wrapper installing a new continuation
(`thread.ts:270-279`), `fire ctx` is the VM invoking the continuation with
its context argument (`thread.ts:274-279`; the VM can only invoke a
registered callable, so an unregistered `ctx` is a no-op), `reset` is
`resetThread` (`thread.ts:47-53`). -/
inductive ContEvent where
  | install
  | fire (ctx : ℕ)
  | reset
deriving Repr, DecidableEq

/-- One step of the continuation lifecycle. -/
def contStep (s : ContState) : ContEvent → ContState
  | ContEvent.install =>
    -- if (this.continuance !== undefined) removeFunction(this.continuance)
    let live1 := match s.continuance with
      | some c => s.live.erase c
      | Option.none => s.live
    -- this.continuance = module.addFunction(...)
    ⟨some s.next, s.next :: live1, s.next + 1⟩
  | ContEvent.fire ctx =>
    if ctx ∈ s.live then
      -- removeFunction(context); if (this.continuance === context) continuance = undefined
      ⟨if s.continuance = some ctx then Option.none else s.continuance,
        s.live.erase ctx, s.next⟩
    else s
  | ContEvent.reset =>
    -- if (this.continuance !== undefined) { removeFunction(this.continuance); ... }
    match s.continuance with
    | some c => ⟨Option.none, s.live.erase c, s.next⟩
    | Option.none => s

/-- A fresh Execution Context: no continuation installed. -/
def contInit : ContState := ⟨Option.none, [], 0⟩

/-- Run a whole event history. -/
def contRun (evs : List ContEvent) : ContState :=
  evs.foldl contStep contInit

/-- The structural invariant: the registered continuation callables are
exactly the stored handle (or none), and every registered pointer is below
the allocation counter. -/
def ContGood (s : ContState) : Prop :=
  match s.continuance with
  | some c => s.live = [c] ∧ c < s.next
  | Option.none => s.live = []

/-! ## `Global.close` (`global.ts:99-110`) -/

/-- The host-module slice `close` touches: the live native callables and
whether the `lua_State` is still open. -/
structure ModuleState where
  funcs : List ℕ
  vmOpen : Bool
deriving Repr, DecidableEq

/-- The `Global` fields `close` reads: the closed flag and the four callable
pointers installed by the constructor (`addFunction` mints a fresh pointer
for each, so the four are pairwise distinct). -/
structure GlobalHandle where
  closed : Bool
  functionGcPointer : ℕ
  jsRefGcPointer : ℕ
  promiseGcPointer : ℕ
  allocatorFunctionPointer : ℕ
deriving Repr, DecidableEq

/-- `Global.close` (`global.ts:99-110`): an early return when already
closed; otherwise set the flag, `lua_close` the state, and remove the three
finalizer callables and the allocator callable.  The function is total —
no path raises. -/
def globalClose (g : GlobalHandle) (m : ModuleState) : GlobalHandle × ModuleState :=
  if g.closed then (g, m)
  else
    ({ g with closed := true },
      { funcs := ((((m.funcs.erase g.functionGcPointer).erase g.jsRefGcPointer).erase
          g.promiseGcPointer).erase g.allocatorFunctionPointer),
        vmOpen := false })

/-! ## Thread wrappers, `isClosed` and the `jsFunc` wrapper
(`thread.ts:124-126, 372-400`) -/

/-- A host-side `Thread` wrapper object: the root `Global` (whose `isClosed`
also treats a null `address` as closed, `global.ts:112-114`) or a child with
its parent back-reference. -/
inductive JsThread where
  | global (address : ℕ) (closed : Bool)
  | child (address : ℕ) (closed : Bool) (parent : JsThread)
deriving Repr, DecidableEq

/-- The wrapped native address. -/
def JsThread.address : JsThread → ℕ
  | JsThread.global a _ => a
  | JsThread.child a _ _ => a

/-- `Thread.isClosed` (`thread.ts:124-126`):
`this.closed || Boolean(this.parent?.isClosed())`, with the `Global`
override `!this.address || super.isClosed()` (`global.ts:112-114`). -/
def JsThread.isClosed : JsThread → Bool
  | JsThread.global a c => a == 0 || c
  | JsThread.child _ c p => c || p.isClosed

/-- `Thread.newThread` (`thread.ts:41-45`): `lua_newthread` allocates a new
coroutine stack and pushes the thread value on the caller's stack; the host
wrapper records the caller as parent. -/
def newThreadM (st : LuaState) (t : JsThread) : LuaState × JsThread :=
  let a := st.nextThread
  (({ st with nextThread := st.nextThread + 1 }).push t.address (LuaValue.thread a),
    JsThread.child a false t)

/-- `lua_rawgeti(addr, LUA_REGISTRYINDEX, ref)`: push the registry slot (nil
when absent) and report its type. -/
def lua_rawgeti (st : LuaState) (addr ref : ℕ) : LuaState × LuaType :=
  let v := (st.registry.lookup ref).getD LuaValue.nil
  (st.push addr v, luaTypeOf (some v))

/-- `lua_remove(addr, idx)`: delete the slot at `idx`, shifting the slots
above it down (no-op on an invalid index). -/
def lua_remove (st : LuaState) (addr : ℕ) (idx : ℤ) : LuaState :=
  let s := st.getStack addr
  let n : Option ℕ :=
    if 0 < idx ∧ idx.toNat ≤ s.length then some idx.toNat
    else if idx < 0 ∧ (-idx).toNat ≤ s.length then some (s.length - (-idx).toNat + 1)
    else Option.none
  match n with
  | some k => st.setStack addr (s.take (k - 1) ++ s.drop k)
  | Option.none => st

/-- The loop of `Thread.getValues` (`thread.ts:150-157`): read `count`
results at `top - count + i + 1` for `i < count`; `top` is captured once
(every branch of `getValue` leaves the stack height unchanged).  Each
`getValue` call is a fresh top-level conversion (own `_done`, own result
heap, which is returned alongside the value so object contents stay
observable). -/
def getValuesAux (fuel addr top count : ℕ) :
    LuaState → ℕ → ℕ → Res (LuaState × List (HostRes × HostHeap))
  | st, _, 0 => Res.ok (st, [])
  | st, i, Nat.succ rem =>
    (getValueFuel fuel st addr ((top : ℤ) - (count : ℤ) + (i : ℤ) + 1) Option.none
        ⟨false, false⟩ [] ⟨[], 0⟩).bind fun q =>
      (getValuesAux fuel addr top count q.1 (i + 1) rem).bind fun p =>
        Res.ok (p.1, (q.2.1, q.2.2.2) :: p.2)

/-- `Thread.getValues` (`thread.ts:150-157`). -/
def getValuesFuel (fuel : ℕ) (st : LuaState) (addr count : ℕ) :
    Res (LuaState × List (HostRes × HostHeap)) :=
  getValuesAux fuel addr (st.gettop addr) count st 0 count

/-- Push a list of call arguments in order (`for (const arg of args)
thread.pushValue(arg)`). -/
def pushArgs (env : Env) (fuel : ℕ) (addr : ℕ) :
    LuaState → List JSValue → Res LuaState
  | st, [] => Res.ok st
  | st, a :: rest =>
    (pushValueFuel env fuel st addr a PushOpts.none).bind fun p =>
      pushArgs env fuel addr p.1 rest

/-- The async wrapper `jsFunc` returned by `getValue` for a guest function
(`thread.ts:372-400`), invoked with `args`.  `runO` abstracts
`await thread.run(args.length)` (state in, thread address and argCount,
state out plus the resume's result count or a thrown error; the loop itself
is modelled by `runModel`).  The guard comes first: a closed owner warns and
resolves to an empty result set with no VM operation at all; otherwise a
child context is spawned, the referenced guest function re-pushed
(`lua_rawgeti`), arguments marshalled, `run` driven and the results read
back, and the `finally` always removes the child thread from the caller's
stack. -/
def jsFuncModel (runO : LuaState → ℕ → ℕ → LuaState × Res ℕ) (env : Env) (fuel : ℕ)
    (self : JsThread) (func : ℕ) (st : LuaState) (args : List JSValue) :
    LuaState × Res (List (HostRes × HostHeap)) :=
  if self.isClosed then
    -- console.warn('Tried to call a function after closing lua state'); return []
    (st, Res.ok [])
  else
    let (st1, thr) := newThreadM st self
    let threadIndex := st1.gettop self.address
    -- try body
    let body : LuaState × Res (List (HostRes × HostHeap)) :=
      let (st2, internalType) := lua_rawgeti st1 thr.address func
      if internalType ≠ LuaType.function then
        (st2, Res.err "A function of the wrong type was pushed" st2)
      else
        match pushArgs env fuel thr.address st2 args with
        | Res.ok st3 =>
          match runO st3 thr.address args.length with
          | (st4, Res.ok resultCount) =>
            match getValuesFuel fuel st4 thr.address resultCount with
            | Res.ok (st5, rs) => (st5, Res.ok rs)
            | Res.err m s => (s, Res.err m s)
            | Res.fuelOut => (st4, Res.fuelOut)
          | (_, Res.err m s) => (s, Res.err m s)
          | (st4, Res.fuelOut) => (st4, Res.fuelOut)
        | Res.err m s => (s, Res.err m s)
        | Res.fuelOut => (st2, Res.fuelOut)
    -- finally { this.remove(threadIndex) }
    (lua_remove body.1 self.address (threadIndex : ℤ), body.2)

/-! ## Validity predicates (decidable, for concrete witnesses) -/

/-- The object ids a host value refers to directly. -/
def JSValue.objIds : JSValue → List ℕ
  | JSValue.obj i => [i]
  | _ => []

/-- Is the value a `Thread` wrapper? -/
def JSValue.isThreadV : JSValue → Bool
  | JSValue.threadV _ => true
  | _ => false

/-- The child values of an object node. -/
def ObjData.children : ObjData → List JSValue
  | ObjData.arr es => es
  | ObjData.plain fs => fs.map Prod.snd

/-- Every object id referenced from a node of the graph has a node. -/
def Env.validB (env : Env) : Bool :=
  env.objs.all fun p =>
    p.2.children.all fun c => c.objIds.all fun i => (env.objs.lookup i).isSome

/-- Every object id referenced by the value itself has a node. -/
def JSValue.validInB (env : Env) (v : JSValue) : Bool :=
  v.objIds.all fun i => (env.objs.lookup i).isSome

/-- No node of the graph has a `Thread` wrapper among its children. -/
def Env.threadFreeB (env : Env) : Bool :=
  env.objs.all fun p => p.2.children.all fun c => !c.isThreadV

/-- Every slot recorded in a `_done` map is nonzero (slots are always
`getTop() + 1`), so the JS truthiness test means plain membership. -/
def donePosB (m : DoneMap) : Bool :=
  m.all fun p => p.2 ≠ 0

/-- The keys of an optional `_done` map. -/
def doneKeys : Option DoneMap → List String
  | Option.none => []
  | some m => m.map Prod.fst

/-- The set of `_done` keys the valid nodes of a graph can produce. -/
def Env.keySet (env : Env) : Finset String :=
  (env.objs.map fun p => env.strCoerce (JSValue.obj p.1)).toFinset

/-- The measure driving the fuel-adequacy argument for `pushValue`: how many
producible keys are not yet recorded. -/
def pushMeasure (env : Env) (d : Option DoneMap) : ℕ :=
  (env.keySet \ (doneKeys d).toFinset).card

/-- The table ids a guest value refers to directly. -/
def LuaValue.tableIds : LuaValue → List ℕ
  | LuaValue.table i => [i]
  | _ => []

/-- Every table id appearing in a table entry of the heap has a heap
entry. -/
def LuaState.wfB (st : LuaState) : Bool :=
  st.tables.all fun p =>
    p.2.entries.all fun e =>
      (e.1.tableIds.all fun i => (st.tables.lookup i).isSome) &&
      (e.2.tableIds.all fun i => (st.tables.lookup i).isSome)

/-- The allocated table ids of a state. -/
def LuaState.tidSet (st : LuaState) : Finset ℕ :=
  (st.tables.map Prod.fst).toFinset

/-- The measure driving the fuel-adequacy argument for `getTableValue`. -/
def getMeasure (st : LuaState) (d : GetDone) : ℕ :=
  (st.tidSet \ (d.map Prod.fst).toFinset).card

/-! ## Association list helpers -/

theorem lookup_mem_of_eq_some {α β : Type} [BEq α] [LawfulBEq α] {l : List (α × β)} {k : α}
    {v : β} (h : l.lookup k = some v) : (k, v) ∈ l := by
  induction l with
  | nil => simp [List.lookup] at h
  | cons p rest ih =>
    rw [List.lookup] at h
    cases hk : (k == p.1) with
    | true =>
      simp only [hk] at h
      obtain rfl : p.2 = v := by injection h
      have hkeq : k = p.1 := eq_of_beq hk
      subst hkeq
      exact List.mem_cons_self _ _
    | false =>
      simp only [hk] at h
      exact List.mem_cons_of_mem _ (ih h)

theorem lookup_eq_none_not_mem {α β : Type} [BEq α] [LawfulBEq α] {l : List (α × β)} {k : α}
    (h : l.lookup k = Option.none) : k ∉ l.map Prod.fst := by
  induction l with
  | nil => simp
  | cons p rest ih =>
    rw [List.lookup] at h
    cases hk : (k == p.1) with
    | true =>
      simp only [hk] at h
      exact Option.noConfusion h
    | false =>
      simp only [hk] at h
      simp only [List.map_cons, List.mem_cons]
      rintro (rfl | hmem)
      · simp at hk
      · exact ih h hmem

theorem lookup_filter_ne {α β : Type} [BEq α] [LawfulBEq α] [DecidableEq α]
    (l : List (α × β)) (a b : α) (hne : b ≠ a) :
    (l.filter fun p => p.1 ≠ a).lookup b = l.lookup b := by
  induction l with
  | nil => rfl
  | cons p rest ih =>
    obtain ⟨x, y⟩ := p
    by_cases hp : x = a
    · subst hp
      have hfilter : ((x, y) :: rest).filter (fun q => q.1 ≠ x) =
          rest.filter (fun q => q.1 ≠ x) := by
        simp [List.filter_cons]
      rw [hfilter, ih]
      have hb : (b == x) = false := by simp [hne]
      simp [List.lookup, hb]
    · have hfilter : ((x, y) :: rest).filter (fun q => q.1 ≠ a) =
          (x, y) :: rest.filter (fun q => q.1 ≠ a) := by
        simp [List.filter_cons, hp]
      rw [hfilter]
      simp only [List.lookup]
      cases hb : (b == x) with
      | true => rfl
      | false => simp only [ih]

/-! ## Stack and heap op lemmas -/

namespace LuaState

theorem getStack_setStack_self (st : LuaState) (addr : ℕ) (s : List LuaValue) :
    (st.setStack addr s).getStack addr = s := by
  simp [setStack, getStack, List.lookup]

theorem getStack_setStack_other (st : LuaState) (addr b : ℕ) (s : List LuaValue)
    (h : b ≠ addr) : (st.setStack addr s).getStack b = st.getStack b := by
  simp only [setStack, getStack, List.lookup]
  have : (b == addr) = false := by simp [h]
  rw [this]
  simp only [cond_false]
  rw [lookup_filter_ne _ _ _ h]

theorem getStack_push_self (st : LuaState) (addr : ℕ) (v : LuaValue) :
    (st.push addr v).getStack addr = st.getStack addr ++ [v] :=
  getStack_setStack_self ..

theorem getStack_push_other (st : LuaState) (addr b : ℕ) (v : LuaValue) (h : b ≠ addr) :
    (st.push addr v).getStack b = st.getStack b :=
  getStack_setStack_other _ _ _ _ h

theorem getStack_popN_self (st : LuaState) (addr n : ℕ) :
    (st.popN addr n).getStack addr =
      (st.getStack addr).take ((st.getStack addr).length - n) :=
  getStack_setStack_self ..

theorem getStack_popN_other (st : LuaState) (addr b n : ℕ) (h : b ≠ addr) :
    (st.popN addr n).getStack b = st.getStack b :=
  getStack_setStack_other _ _ _ _ h

theorem slotAt_pos (st : LuaState) (addr : ℕ) (k : ℕ) (hk : 0 < k) :
    st.slotAt addr (k : ℤ) = (st.getStack addr).get? (k - 1) := by
  simp only [slotAt]
  rw [if_pos (by exact_mod_cast hk)]
  simp

theorem slotAt_neg_one (st : LuaState) (addr : ℕ) {s : List LuaValue} {v : LuaValue}
    (h : st.getStack addr = s ++ [v]) : st.slotAt addr (-1) = some v := by
  simp only [slotAt, h]
  norm_num

end LuaState

/-! ## Concrete states for instantiating the theorems -/

/-- A root state as the `Global` constructor leaves it: empty stacks and
heaps, the three metatables registered. -/
def stdState : LuaState :=
  ⟨[], 1, [], [], 1,
    [(LuaMetatables.FunctionReference, 90), (LuaMetatables.JsReference, 91),
      (LuaMetatables.Promise, 92)], [], 1, [], 1, [], 1⟩

/-- An empty host-object graph with a constant string coercion. -/
def stdEnv : Env := ⟨[], fun _ => "k"⟩

/-- The `HostRes` that is (strictly) equal to a primitive host value, for
stating the round-trip property (meaningless on non-primitives). -/
def reprHost : JSValue → HostRes
  | JSValue.undef => HostRes.undef
  | JSValue.jsNull => HostRes.jsNull
  | JSValue.num q => HostRes.num q
  | JSValue.str s => HostRes.str s
  | JSValue.boolean b => HostRes.boolean b
  | _ => HostRes.ptr 0

/-! ## C9 — the index-zero guard of `getValue` -/

/-- C9: a `getValue` call with stack index 0 throws `index must be
non-zero` before touching the VM state (the error carries the unmodified
state), and every non-zero index proceeds to the type dispatch of the Value
Codec. -/
theorem getValue_index_zero (fuel : ℕ) (st : LuaState) (addr : ℕ) (ty : Option LuaType)
    (options : GetOpts) (d : GetDone) (h : HostHeap) (idx : ℤ) (hnz : idx ≠ 0) :
    getValueFuel fuel st addr 0 ty options d h = Res.err "index must be non-zero" st ∧
    getValueFuel fuel st addr idx ty options d h =
      getHostVal fuel st
        (match ty with
          | some ty0 => if ty0 = LuaType.nil then luaTypeOf (st.slotAt addr idx) else ty0
          | Option.none => luaTypeOf (st.slotAt addr idx))
        (st.slotAt addr idx) options d h := by
  constructor
  · simp [getValueFuel]
  · simp [getValueFuel, hnz]

/-- Witness for C9 at index `-1` of the standard root state. -/
theorem getValue_index_zero_witness :
    getValueFuel 1 stdState 0 0 Option.none ⟨false, false⟩ [] ⟨[], 0⟩ =
      Res.err "index must be non-zero" stdState ∧
    getValueFuel 1 stdState 0 (-1) Option.none ⟨false, false⟩ [] ⟨[], 0⟩ =
      getHostVal 1 stdState (luaTypeOf (stdState.slotAt 0 (-1))) (stdState.slotAt 0 (-1))
        ⟨false, false⟩ [] ⟨[], 0⟩ :=
  getValue_index_zero 1 stdState 0 Option.none ⟨false, false⟩ [] ⟨[], 0⟩ (-1) (by decide)

/-! ## C8 — unsupported host types -/

/-- C8: a host value of an unsupported type — in the modelled host universe
exactly the `bigint` and `symbol` values, every other `typeof` outcome
having a branch — makes `pushValue` throw the UnsupportedType error with the
state untouched (in particular nothing was pushed onto the guest stack).
The hypotheses pin down that neither early branch fires, as with default
options. -/
theorem pushValue_unsupported_type (env : Env) (fuel : ℕ) (st : LuaState) (addr : ℕ)
    (n : ℤ) (m : ℕ) (opts : PushOpts)
    (hb : doneLookup opts.done (env.strCoerce (JSValue.bigintV n)) = Option.none)
    (hs : doneLookup opts.done (env.strCoerce (JSValue.symbolV m)) = Option.none)
    (href : opts.reference = false) :
    pushValueFuel env (fuel + 1) st addr (JSValue.bigintV n) opts =
      Res.err "The type bigint is not supported by Lua" st ∧
    pushValueFuel env (fuel + 1) st addr (JSValue.symbolV m) opts =
      Res.err "The type symbol is not supported by Lua" st := by
  constructor
  · simp [pushValueFuel, hb, href]
  · simp [pushValueFuel, hs, href]

/-- Witness for C8: pushing a bigint and a symbol on the standard root
state with default options. -/
theorem pushValue_unsupported_type_witness :
    pushValueFuel stdEnv 1 stdState 0 (JSValue.bigintV 5) PushOpts.none =
      Res.err "The type bigint is not supported by Lua" stdState ∧
    pushValueFuel stdEnv 1 stdState 0 (JSValue.symbolV 7) PushOpts.none =
      Res.err "The type symbol is not supported by Lua" stdState :=
  pushValue_unsupported_type stdEnv 0 stdState 0 5 7 PushOpts.none rfl rfl rfl

/-! ## C4 — a rejected awaited host function -/

/-- C4 (the code against the claim): when the resume yields the deferred of
an awaited host function and that deferred rejects, `run`'s `await` of the
yielded promise throws the rejection out of the loop, so `lua_resume` is
never called again — the guest coroutine stays suspended instead of being
resumed with the rejection payload as the specification requires.  The first
conjunct shows this for every rejection payload and every would-be
continuation of the script; the second evaluates the loop at the concrete
failing input. -/
theorem run_rejection_not_resumed :
    (∀ (e : JSValue) (c n : ℕ) (rest : List ResumeOut),
      runFromScript (ResumeOut.yielded c (some (Settled.rejected e)) :: rest) n =
        RunOutcome.threwRejection e (n + 1)) ∧
    runModel [ResumeOut.yielded 1 (some (Settled.rejected (JSValue.str "boom")))] =
      RunOutcome.threwRejection (JSValue.str "boom") 1 :=
  ⟨fun _ _ _ _ => rfl, rfl⟩

/-! ## C7 — calling a guest-function wrapper after close -/

/-- C7: the async wrapper returned by `getValue` for a guest function, when
invoked while the owning context is closed, resolves to an empty result set
and performs no operation on the VM state (the state comes back exactly as
it went in). -/
theorem jsFunc_closed_empty (runO : LuaState → ℕ → ℕ → LuaState × Res ℕ) (env : Env)
    (fuel : ℕ) (self : JsThread) (func : ℕ) (st : LuaState) (args : List JSValue)
    (hc : self.isClosed = true) :
    jsFuncModel runO env fuel self func st args = (st, Res.ok []) := by
  simp [jsFuncModel, hc]

/-- Witness for C7: a root whose `address` is null is closed, and the
wrapper is a no-op on it. -/
theorem jsFunc_closed_empty_witness :
    jsFuncModel (fun s _ _ => (s, Res.ok 0)) stdEnv 1 (JsThread.global 0 false) 3 stdState
      [JSValue.num 1] = (stdState, Res.ok []) :=
  jsFunc_closed_empty (fun s _ _ => (s, Res.ok 0)) stdEnv 1 (JsThread.global 0 false) 3
    stdState [JSValue.num 1] rfl

/-! ## C5 — `Global.close` is idempotent and releases each callable once -/

/-- C5: `close` is total (no path raises); a second call returns everything
unchanged (the early `if (this.closed) return`); the first call tears the VM
state down; and each of the four installed native callables — the three
finalizers and the allocator, whose pointers are pairwise distinct because
`addFunction` mints a fresh pointer for each — is removed exactly once
(its multiplicity among the live callables drops by exactly one and stays
there). -/
theorem globalClose_idempotent_exact_release (g : GlobalHandle) (m : ModuleState)
    (hopen : g.closed = false)
    (h12 : g.functionGcPointer ≠ g.jsRefGcPointer)
    (h13 : g.functionGcPointer ≠ g.promiseGcPointer)
    (h14 : g.functionGcPointer ≠ g.allocatorFunctionPointer)
    (h23 : g.jsRefGcPointer ≠ g.promiseGcPointer)
    (h24 : g.jsRefGcPointer ≠ g.allocatorFunctionPointer)
    (h34 : g.promiseGcPointer ≠ g.allocatorFunctionPointer)
    (hm1 : g.functionGcPointer ∈ m.funcs)
    (hm2 : g.jsRefGcPointer ∈ m.funcs)
    (hm3 : g.promiseGcPointer ∈ m.funcs)
    (hm4 : g.allocatorFunctionPointer ∈ m.funcs) :
    globalClose (globalClose g m).1 (globalClose g m).2 = globalClose g m ∧
    (globalClose g m).2.vmOpen = false ∧
    (globalClose g m).2.funcs.count g.functionGcPointer + 1 =
      m.funcs.count g.functionGcPointer ∧
    (globalClose g m).2.funcs.count g.jsRefGcPointer + 1 =
      m.funcs.count g.jsRefGcPointer ∧
    (globalClose g m).2.funcs.count g.promiseGcPointer + 1 =
      m.funcs.count g.promiseGcPointer ∧
    (globalClose g m).2.funcs.count g.allocatorFunctionPointer + 1 =
      m.funcs.count g.allocatorFunctionPointer := by
  have hstep : globalClose g m =
      ({ g with closed := true },
        { funcs := ((((m.funcs.erase g.functionGcPointer).erase g.jsRefGcPointer).erase
            g.promiseGcPointer).erase g.allocatorFunctionPointer),
          vmOpen := false }) := by
    simp [globalClose, hopen]
  refine ⟨?_, ?_, ?_, ?_, ?_, ?_⟩
  · rw [hstep]
    simp [globalClose]
  · rw [hstep]
  · rw [hstep]
    simp only []
    rw [List.count_erase_of_ne h14, List.count_erase_of_ne h13, List.count_erase_of_ne h12,
      List.count_erase_self]
    have : 0 < m.funcs.count g.functionGcPointer := List.count_pos_iff.2 hm1
    omega
  · rw [hstep]
    simp only []
    rw [List.count_erase_of_ne h24, List.count_erase_of_ne h23, List.count_erase_self,
      List.count_erase_of_ne (Ne.symm h12)]
    have : 0 < m.funcs.count g.jsRefGcPointer := List.count_pos_iff.2 hm2
    omega
  · rw [hstep]
    simp only []
    rw [List.count_erase_of_ne h34, List.count_erase_self,
      List.count_erase_of_ne (Ne.symm h23), List.count_erase_of_ne (Ne.symm h13)]
    have : 0 < m.funcs.count g.promiseGcPointer := List.count_pos_iff.2 hm3
    omega
  · rw [hstep]
    simp only []
    rw [List.count_erase_self, List.count_erase_of_ne (Ne.symm h34),
      List.count_erase_of_ne (Ne.symm h24), List.count_erase_of_ne (Ne.symm h14)]
    have : 0 < m.funcs.count g.allocatorFunctionPointer := List.count_pos_iff.2 hm4
    omega

/-- Witness for C5 on a concrete open root with the four callables live. -/
theorem globalClose_idempotent_exact_release_witness :
    globalClose (globalClose ⟨false, 1, 2, 3, 4⟩ ⟨[1, 2, 3, 4], true⟩).1
        (globalClose ⟨false, 1, 2, 3, 4⟩ ⟨[1, 2, 3, 4], true⟩).2 =
      globalClose ⟨false, 1, 2, 3, 4⟩ ⟨[1, 2, 3, 4], true⟩ ∧
    (globalClose ⟨false, 1, 2, 3, 4⟩ ⟨[1, 2, 3, 4], true⟩).2.vmOpen = false ∧
    (globalClose ⟨false, 1, 2, 3, 4⟩ ⟨[1, 2, 3, 4], true⟩).2.funcs.count 1 + 1 =
      [1, 2, 3, 4].count 1 ∧
    (globalClose ⟨false, 1, 2, 3, 4⟩ ⟨[1, 2, 3, 4], true⟩).2.funcs.count 2 + 1 =
      [1, 2, 3, 4].count 2 ∧
    (globalClose ⟨false, 1, 2, 3, 4⟩ ⟨[1, 2, 3, 4], true⟩).2.funcs.count 3 + 1 =
      [1, 2, 3, 4].count 3 ∧
    (globalClose ⟨false, 1, 2, 3, 4⟩ ⟨[1, 2, 3, 4], true⟩).2.funcs.count 4 + 1 =
      [1, 2, 3, 4].count 4 :=
  globalClose_idempotent_exact_release ⟨false, 1, 2, 3, 4⟩ ⟨[1, 2, 3, 4], true⟩ rfl
    (by decide) (by decide) (by decide) (by decide) (by decide) (by decide)
    (by decide) (by decide) (by decide) (by decide)

/-! ## Lemmas about the `_done` cycle-guard map -/

/-- `donePosB` lifted to the optional map (absent means trivially fine). -/
def donePosOptB : Option DoneMap → Bool
  | Option.none => true
  | some m => donePosB m

/-- The key set after a JS assignment into the record. -/
theorem doneKeys_doneInsert (m : DoneMap) (k : String) (slot : ℕ) :
    ((doneInsert m k slot).map Prod.fst).toFinset = insert k (m.map Prod.fst).toFinset := by
  ext x
  simp only [doneInsert, List.map_cons, List.mem_toFinset, List.mem_cons, List.mem_map,
    List.mem_filter, Finset.mem_insert]
  constructor
  · rintro (rfl | ⟨p, ⟨hp, -⟩, rfl⟩)
    · exact Or.inl rfl
    · exact Or.inr ⟨p, hp, rfl⟩
  · rintro (rfl | ⟨p, hp, rfl⟩)
    · exact Or.inl rfl
    · by_cases hx : p.1 = k
      · exact Or.inl hx
      · exact Or.inr ⟨p, ⟨hp, by simpa using hx⟩, rfl⟩

/-- Assignment of a nonzero slot preserves positivity of the record. -/
theorem donePosB_doneInsert {m : DoneMap} (hm : donePosB m = true) {k : String} {slot : ℕ}
    (hs : slot ≠ 0) : donePosB (doneInsert m k slot) = true := by
  simp only [donePosB, doneInsert, List.all_eq_true, List.mem_cons, List.mem_filter] at hm ⊢
  rintro p (rfl | ⟨hp, -⟩)
  · simpa using hs
  · exact hm p hp

/-- On a positive record, a falsy lookup means the key is absent. -/
theorem not_mem_of_doneLookup_none {m : DoneMap} {k : String} (hpos : donePosB m = true)
    (h : doneLookup (some m) k = Option.none) : k ∉ m.map Prod.fst := by
  cases hl : m.lookup k with
  | none => exact lookup_eq_none_not_mem hl
  | some s =>
    cases s with
    | zero =>
      have hmem : (k, 0) ∈ m := lookup_mem_of_eq_some hl
      simp only [donePosB, List.all_eq_true] at hpos
      have := hpos (k, 0) hmem
      simp at this
    | succ s0 =>
      simp only [doneLookup, hl] at h
      exact Option.noConfusion h

/-- Growing the record can only shrink the adequacy measure. -/
theorem pushMeasure_mono (env : Env) {d d' : DoneMap}
    (hle : ∀ k ∈ d.map Prod.fst, k ∈ d'.map Prod.fst) :
    pushMeasure env (some d') ≤ pushMeasure env (some d) := by
  apply Finset.card_le_card
  apply Finset.sdiff_subset_sdiff (le_refl _)
  intro x hx
  simp only [doneKeys, List.mem_toFinset] at hx ⊢
  exact hle x hx

/-- Recording a producible, absent key strictly decreases the measure. -/
theorem pushMeasure_doneInsert_lt (env : Env) {d : DoneMap} {k : String} (slot : ℕ)
    (hk : k ∈ env.keySet) (habs : k ∉ d.map Prod.fst) :
    pushMeasure env (some (doneInsert d k slot)) < pushMeasure env (some d) := by
  have hmem : k ∈ env.keySet \ (d.map Prod.fst).toFinset := by
    simp only [Finset.mem_sdiff, List.mem_toFinset]
    exact ⟨hk, habs⟩
  calc pushMeasure env (some (doneInsert d k slot))
      = ((env.keySet \ (d.map Prod.fst).toFinset).erase k).card := by
        simp only [pushMeasure, doneKeys, doneKeys_doneInsert, Finset.sdiff_insert]
    _ < (env.keySet \ (d.map Prod.fst).toFinset).card :=
        Finset.card_erase_lt_of_mem hmem
    _ = pushMeasure env (some d) := rfl

/-! ## The primitive operations never exhaust fuel -/

theorem lua_settable_ne_fuelOut (st : LuaState) (addr : ℕ) (t : ℤ) :
    st.lua_settable addr t ≠ Res.fuelOut := by
  unfold LuaState.lua_settable
  repeat' split
  all_goals simp

theorem lua_setmetatable_ne_fuelOut (st : LuaState) (addr : ℕ) (idx : ℤ) :
    st.lua_setmetatable addr idx ≠ Res.fuelOut := by
  unfold LuaState.lua_setmetatable
  cases h1 : st.slotAt addr idx with
  | none => cases h2 : st.slotAt addr (-1) <;> simp
  | some target =>
    cases h2 : st.slotAt addr (-1) with
    | none => simp
    | some m =>
      cases target
      case table tid =>
        cases h3 : (st.popN addr 1).tableAt tid <;> simp [h3]
      case userdata uid =>
        cases h4 : (st.popN addr 1).userdataAt uid <;> simp [h4]
      all_goals simp

theorem createAndPushJsReference_ne_fuelOut (st : LuaState) (addr : ℕ) (v : JSValue) :
    createAndPushJsReference st addr v ≠ Res.fuelOut := by
  unfold createAndPushJsReference
  split
  next st1 pointer heq =>
    rcases hg : (st1.newUserdataWithPointer addr pointer).luaL_getmetatable addr
        LuaMetatables.JsReference with ⟨st3, ty⟩
    simp only [hg]
    cases ty <;> first
    | exact lua_setmetatable_ne_fuelOut _ _ _
    | simp

theorem createAndPushFunctionReference_ne_fuelOut (st : LuaState) (addr pointer : ℕ) :
    createAndPushFunctionReference st addr pointer ≠ Res.fuelOut := by
  simp only [createAndPushFunctionReference]
  rcases hg : (st.newUserdataWithPointer addr pointer).luaL_getmetatable addr
      LuaMetatables.FunctionReference with ⟨st3, ty⟩
  cases ty <;> first
  | exact lua_setmetatable_ne_fuelOut _ _ _
  | simp

/-! ## Inversion lemmas for the primitive operations -/

theorem slotAt_neg_two (st : LuaState) (addr : ℕ) {s : List LuaValue} {a b : LuaValue}
    (h : st.getStack addr = s ++ [a, b]) : st.slotAt addr (-2) = some a := by
  simp only [LuaState.slotAt, h]
  rw [if_neg (by norm_num), if_pos (by simp)]
  have hlen : (s ++ [a, b]).length = s.length + 2 := by simp
  rw [hlen]
  show (s ++ [a, b]).get? (s.length + 2 - (2 : ℤ).toNat) = some a
  have : s.length + 2 - (2 : ℤ).toNat = s.length := by
    have h2 : (2 : ℤ).toNat = 2 := rfl
    omega
  rw [this, List.get?_append_right (le_refl _)]
  simp

theorem getStack_setTable (st : LuaState) (id : ℕ) (t : TableObj) (b : ℕ) :
    (st.setTable id t).getStack b = st.getStack b := rfl

theorem getStack_setUserdata (st : LuaState) (id : ℕ) (u : UserDataObj) (b : ℕ) :
    (st.setUserdata id u).getStack b = st.getStack b := rfl

theorem tableAt_setTable_isSome (st : LuaState) (id : ℕ) (t : TableObj) (id2 : ℕ)
    (h : (st.tableAt id2).isSome) : ((st.setTable id t).tableAt id2).isSome := by
  by_cases hid : id2 = id
  · subst hid
    simp [LuaState.setTable, LuaState.tableAt, List.lookup]
  · simp only [LuaState.setTable, LuaState.tableAt] at *
    rw [List.lookup]
    have hb : (id2 == id) = false := by simp [hid]
    rw [hb]
    simp only [cond_false]
    rw [lookup_filter_ne _ _ _ hid]
    exact h

theorem tableAt_setUserdata (st : LuaState) (id : ℕ) (u : UserDataObj) (id2 : ℕ) :
    ((st.setUserdata id u).tableAt id2) = st.tableAt id2 := rfl

theorem tableAt_push (st : LuaState) (addr : ℕ) (v : LuaValue) (id : ℕ) :
    ((st.push addr v).tableAt id) = st.tableAt id := rfl

theorem tableAt_popN (st : LuaState) (addr n : ℕ) (id : ℕ) :
    ((st.popN addr n).tableAt id) = st.tableAt id := rfl

/-- What a successful `lua_setmetatable` does to the observable state: pop
one slot from the acting stack, leave every other stack alone, and keep
every existing table existing. -/
theorem lua_setmetatable_ok_inv {st : LuaState} {addr : ℕ} {idx : ℤ} {st' : LuaState}
    (h : st.lua_setmetatable addr idx = Res.ok st') :
    st'.getStack addr = (st.getStack addr).take ((st.getStack addr).length - 1) ∧
    (∀ b, b ≠ addr → st'.getStack b = st.getStack b) ∧
    (∀ id, (st.tableAt id).isSome → (st'.tableAt id).isSome) := by
  unfold LuaState.lua_setmetatable at h
  cases h1 : st.slotAt addr idx with
  | none => rw [h1] at h; cases h2 : st.slotAt addr (-1) <;> rw [h2] at h <;> cases h
  | some target =>
    rw [h1] at h
    cases h2 : st.slotAt addr (-1) with
    | none => rw [h2] at h; cases h
    | some m =>
      rw [h2] at h
      cases target with
      | table tid =>
        cases h3 : (st.popN addr 1).tableAt tid with
        | none => simp only [h3] at h; cases h
        | some t =>
          simp only [h3] at h
          cases h
          refine ⟨LuaState.getStack_popN_self .., ?_, ?_⟩
          · intro b hb
            rw [getStack_setTable]
            exact LuaState.getStack_popN_other _ _ _ _ hb
          · intro id hid
            exact tableAt_setTable_isSome _ _ _ _ (by rw [tableAt_popN]; exact hid)
      | userdata uid =>
        cases h4 : (st.popN addr 1).userdataAt uid with
        | none => simp only [h4] at h; cases h
        | some u =>
          simp only [h4] at h
          cases h
          refine ⟨LuaState.getStack_popN_self .., ?_, ?_⟩
          · intro b hb
            rw [getStack_setUserdata]
            exact LuaState.getStack_popN_other _ _ _ _ hb
          · intro id hid
            rw [tableAt_setUserdata, tableAt_popN]
            exact hid
      | nil => cases h
      | integer n => cases h
      | number q => cases h
      | str s => cases h
      | boolean bb => cases h
      | thread a => cases h
      | cfunction p up => cases h
      | luafunc f => cases h

/-- What a successful `lua_settable` does: pop the key and value, leave
other stacks alone, keep existing tables existing. -/
theorem lua_settable_ok_inv {st : LuaState} {addr : ℕ} {tIdx : ℤ} {st' : LuaState}
    (h : st.lua_settable addr tIdx = Res.ok st') :
    st'.getStack addr = (st.getStack addr).take ((st.getStack addr).length - 2) ∧
    (∀ b, b ≠ addr → st'.getStack b = st.getStack b) ∧
    (∀ id, (st.tableAt id).isSome → (st'.tableAt id).isSome) := by
  unfold LuaState.lua_settable at h
  cases h1 : st.slotAt addr (-1) with
  | none =>
    rw [h1] at h
    cases h2 : st.slotAt addr (-2) <;> rw [h2] at h <;>
      cases h3 : st.slotAt addr tIdx <;> rw [h3] at h <;> cases h
  | some v =>
    rw [h1] at h
    cases h2 : st.slotAt addr (-2) with
    | none => rw [h2] at h; cases h3 : st.slotAt addr tIdx <;> rw [h3] at h <;> cases h
    | some k =>
      rw [h2] at h
      cases h3 : st.slotAt addr tIdx with
      | none => rw [h3] at h; cases h
      | some target =>
        rw [h3] at h
        cases target with
        | table tid =>
          cases h4 : st.tableAt tid with
          | none => simp only [h4] at h; cases h
          | some t =>
            simp only [h4] at h
            cases h
            refine ⟨?_, ?_, ?_⟩
            · rw [LuaState.getStack_popN_self, getStack_setTable]
            · intro b hb
              rw [LuaState.getStack_popN_other _ _ _ _ hb, getStack_setTable]
            · intro id hid
              rw [tableAt_popN]
              exact tableAt_setTable_isSome _ _ _ _ hid
        | nil => cases h
        | integer n => cases h
        | number q => cases h
        | str s => cases h
        | boolean bb => cases h
        | userdata uid => cases h
        | thread a => cases h
        | cfunction p up => cases h
        | luafunc f => cases h

theorem getStack_congr {st1 st2 : LuaState} (h : st1.threadStacks = st2.threadStacks)
    (b : ℕ) : st1.getStack b = st2.getStack b := by
  simp [LuaState.getStack, h]

theorem tableAt_congr {st1 st2 : LuaState} (h : st1.tables = st2.tables) (id : ℕ) :
    st1.tableAt id = st2.tableAt id := by
  simp [LuaState.tableAt, h]

theorem metatables_push (st : LuaState) (a : ℕ) (v : LuaValue) :
    (st.push a v).metatables = st.metatables := rfl

theorem lua_createtable_getStack_self (st : LuaState) (addr : ℕ) :
    (st.lua_createtable addr).getStack addr =
      st.getStack addr ++ [LuaValue.table st.nextAddr] := by
  unfold LuaState.lua_createtable
  rw [LuaState.getStack_push_self]
  rfl

theorem lua_createtable_getStack_other (st : LuaState) (addr b : ℕ) (h : b ≠ addr) :
    (st.lua_createtable addr).getStack b = st.getStack b := by
  unfold LuaState.lua_createtable
  rw [LuaState.getStack_push_other _ _ _ _ h]
  rfl

theorem lua_createtable_tableAt_isSome (st : LuaState) (addr id : ℕ)
    (h : (st.tableAt id).isSome) : ((st.lua_createtable addr).tableAt id).isSome := by
  unfold LuaState.lua_createtable LuaState.tableAt
  show ((((st.nextAddr, (⟨[], Option.none⟩ : TableObj)) :: st.tables)).lookup id).isSome
  rw [List.lookup]
  cases hid : (id == st.nextAddr) with
  | true => simp
  | false => exact h

theorem lua_pushcclosure_append (st : LuaState) (addr ptr : ℕ) {s : List LuaValue}
    {x : LuaValue} (h : st.getStack addr = s ++ [x]) :
    ∃ u, (st.lua_pushcclosure addr ptr).getStack addr = s ++ [LuaValue.cfunction ptr u] ∧
      (∀ b, b ≠ addr → (st.lua_pushcclosure addr ptr).getStack b = st.getStack b) ∧
      ∀ id, (st.lua_pushcclosure addr ptr).tableAt id = st.tableAt id := by
  refine ⟨(match st.slotAt addr (-1) with
    | some (LuaValue.userdata uid) => some uid
    | _ => Option.none), ?_, ?_, fun id => rfl⟩
  · unfold LuaState.lua_pushcclosure
    rw [LuaState.getStack_push_self, LuaState.getStack_popN_self, h]
    have hlen : (s ++ [x]).length - 1 = s.length := by simp
    rw [hlen, List.take_left]
  · intro b hb
    unfold LuaState.lua_pushcclosure
    rw [LuaState.getStack_push_other _ _ _ _ hb, LuaState.getStack_popN_other _ _ _ _ hb]

/-- Inversion of a successful `createAndPushJsReference`: the `JsReference`
metatable existed and exactly the tagged userdata was appended to the acting
stack. -/
theorem createAndPushJsReference_ok_inv {st : LuaState} {addr : ℕ} {v : JSValue}
    {st' : LuaState} (h : createAndPushJsReference st addr v = Res.ok st') :
    ∃ uid, st'.getStack addr = st.getStack addr ++ [LuaValue.userdata uid] ∧
      (∀ b, b ≠ addr → st'.getStack b = st.getStack b) ∧
      (∀ id, (st.tableAt id).isSome → (st'.tableAt id).isSome) := by
  unfold createAndPushJsReference at h
  simp only [LuaState.cmRef, LuaState.newUserdataWithPointer, LuaState.luaL_getmetatable,
    metatables_push] at h
  cases hmt : (List.lookup LuaMetatables.JsReference st.metatables) with
  | none =>
    rw [show st.metatables.lookup LuaMetatables.JsReference =
      List.lookup LuaMetatables.JsReference st.metatables from rfl] at h
    simp only [hmt] at h
    cases h
  | some mid =>
    rw [show st.metatables.lookup LuaMetatables.JsReference =
      List.lookup LuaMetatables.JsReference st.metatables from rfl] at h
    simp only [hmt] at h
    obtain ⟨hstack, hother, htab⟩ := lua_setmetatable_ok_inv h
    refine ⟨st.nextAddr, ?_, ?_, ?_⟩
    · rw [hstack, LuaState.getStack_push_self, LuaState.getStack_push_self]
      rw [getStack_congr (rfl) addr]
      show (st.getStack addr ++ [LuaValue.userdata st.nextAddr] ++ [LuaValue.table mid]).take
          ((st.getStack addr ++ [LuaValue.userdata st.nextAddr] ++ [LuaValue.table mid]).length
            - 1) = _
      have hlen : (st.getStack addr ++ [LuaValue.userdata st.nextAddr] ++
          [LuaValue.table mid]).length - 1 =
          (st.getStack addr ++ [LuaValue.userdata st.nextAddr]).length := by simp
      rw [hlen, List.take_left]
    · intro b hb
      rw [hother b hb, LuaState.getStack_push_other _ _ _ _ hb,
        LuaState.getStack_push_other _ _ _ _ hb]
      exact getStack_congr rfl b
    · intro id hid
      apply htab
      rw [tableAt_push, tableAt_push]
      exact hid

/-- Inversion of a successful `createAndPushFunctionReference`. -/
theorem createAndPushFunctionReference_ok_inv {st : LuaState} {addr pointer : ℕ}
    {st' : LuaState} (h : createAndPushFunctionReference st addr pointer = Res.ok st') :
    ∃ uid, st'.getStack addr = st.getStack addr ++ [LuaValue.userdata uid] ∧
      (∀ b, b ≠ addr → st'.getStack b = st.getStack b) ∧
      (∀ id, (st.tableAt id).isSome → (st'.tableAt id).isSome) := by
  unfold createAndPushFunctionReference at h
  simp only [LuaState.newUserdataWithPointer, LuaState.luaL_getmetatable,
    metatables_push] at h
  cases hmt : (List.lookup LuaMetatables.FunctionReference st.metatables) with
  | none =>
    rw [show st.metatables.lookup LuaMetatables.FunctionReference =
      List.lookup LuaMetatables.FunctionReference st.metatables from rfl] at h
    simp only [hmt] at h
    cases h
  | some mid =>
    rw [show st.metatables.lookup LuaMetatables.FunctionReference =
      List.lookup LuaMetatables.FunctionReference st.metatables from rfl] at h
    simp only [hmt] at h
    obtain ⟨hstack, hother, htab⟩ := lua_setmetatable_ok_inv h
    refine ⟨st.nextAddr, ?_, ?_, ?_⟩
    · rw [hstack, LuaState.getStack_push_self, LuaState.getStack_push_self]
      rw [getStack_congr (rfl) addr]
      show (st.getStack addr ++ [LuaValue.userdata st.nextAddr] ++ [LuaValue.table mid]).take
          ((st.getStack addr ++ [LuaValue.userdata st.nextAddr] ++ [LuaValue.table mid]).length
            - 1) = _
      have hlen : (st.getStack addr ++ [LuaValue.userdata st.nextAddr] ++
          [LuaValue.table mid]).length - 1 =
          (st.getStack addr ++ [LuaValue.userdata st.nextAddr]).length := by simp
      rw [hlen, List.take_left]
    · intro b hb
      rw [hother b hb, LuaState.getStack_push_other _ _ _ _ hb,
        LuaState.getStack_push_other _ _ _ _ hb]
      exact getStack_congr rfl b
    · intro id hid
      apply htab
      rw [tableAt_push, tableAt_push]
      exact hid

/-- Inversion of a successful promise push (`thread.ts:192-204`): the
`Promise` metatable existed, the `_done` record came through untouched, and
exactly the tagged userdata was appended to the acting stack. -/
theorem push_promise_inv {env : Env} {fuel : ℕ} {st : LuaState} {addr pid : ℕ}
    {opts : PushOpts} {st' : LuaState} {d' : Option DoneMap}
    (hdl : doneLookup opts.done (env.strCoerce (JSValue.promiseV pid)) = Option.none)
    (href : opts.reference = false)
    (h : pushValueFuel env (fuel + 1) st addr (JSValue.promiseV pid) opts =
      Res.ok (st', d')) :
    d' = opts.done ∧
    (∃ uid, st'.getStack addr = st.getStack addr ++ [LuaValue.userdata uid]) ∧
    (∀ b, b ≠ addr → st'.getStack b = st.getStack b) ∧
    (∀ id, (st.tableAt id).isSome → (st'.tableAt id).isSome) := by
  rw [pushValueFuel] at h
  simp only [hdl, if_neg (show ¬ opts.reference = true by simp [href])] at h
  simp only [LuaState.cmRef, LuaState.newUserdataWithPointer, LuaState.luaL_getmetatable,
    metatables_push] at h
  cases hmt : (List.lookup LuaMetatables.Promise st.metatables) with
  | none =>
    rw [show st.metatables.lookup LuaMetatables.Promise =
      List.lookup LuaMetatables.Promise st.metatables from rfl] at h
    simp only [hmt] at h
    cases h
  | some mid =>
    rw [show st.metatables.lookup LuaMetatables.Promise =
      List.lookup LuaMetatables.Promise st.metatables from rfl] at h
    simp only [hmt] at h
    rw [Res.bind_eq_ok] at h
    obtain ⟨st4, h4, h⟩ := h
    cases h
    obtain ⟨hstack, hother, htab⟩ := lua_setmetatable_ok_inv h4
    refine ⟨rfl, ⟨st.nextAddr, ?_⟩, ?_, ?_⟩
    · rw [hstack, LuaState.getStack_push_self, LuaState.getStack_push_self]
      rw [getStack_congr (rfl) addr]
      show (st.getStack addr ++ [LuaValue.userdata st.nextAddr] ++ [LuaValue.table mid]).take
          ((st.getStack addr ++ [LuaValue.userdata st.nextAddr] ++ [LuaValue.table mid]).length
            - 1) = _
      have hlen : (st.getStack addr ++ [LuaValue.userdata st.nextAddr] ++
          [LuaValue.table mid]).length - 1 =
          (st.getStack addr ++ [LuaValue.userdata st.nextAddr]).length := by simp
      rw [hlen, List.take_left]
    · intro b hb
      rw [hother b hb, LuaState.getStack_push_other _ _ _ _ hb,
        LuaState.getStack_push_other _ _ _ _ hb]
      exact getStack_congr rfl b
    · intro id hid
      apply htab
      rw [tableAt_push, tableAt_push]
      exact hid

/-- Inversion of a successful host-function push (`thread.ts:236-327`): the
minted callable was wrapped in a function-reference userdata and absorbed as
the closure's upvalue, appending exactly the closure to the acting stack. -/
theorem push_func_inv {env : Env} {fuel : ℕ} {st : LuaState} {addr fid : ℕ}
    {opts : PushOpts} {st' : LuaState} {d' : Option DoneMap}
    (hdl : doneLookup opts.done (env.strCoerce (JSValue.funcV fid)) = Option.none)
    (href : opts.reference = false)
    (h : pushValueFuel env (fuel + 1) st addr (JSValue.funcV fid) opts =
      Res.ok (st', d')) :
    d' = opts.done ∧
    (∃ w, st'.getStack addr = st.getStack addr ++ [w]) ∧
    (∀ b, b ≠ addr → st'.getStack b = st.getStack b) ∧
    (∀ id, (st.tableAt id).isSome → (st'.tableAt id).isSome) := by
  rw [pushValueFuel] at h
  simp only [hdl, if_neg (show ¬ opts.reference = true by simp [href])] at h
  simp only [LuaState.addFunction] at h
  rw [Res.bind_eq_ok] at h
  obtain ⟨st2, h2, h⟩ := h
  cases h
  obtain ⟨uid, hstack2, hother2, htab2⟩ := createAndPushFunctionReference_ok_inv h2
  have hbase : st2.getStack addr = st.getStack addr ++ [LuaValue.userdata uid] := hstack2
  obtain ⟨u, hccl, hcclo, hcclt⟩ := lua_pushcclosure_append st2 addr st.nextFunc hbase
  refine ⟨rfl, ⟨LuaValue.cfunction st.nextFunc u, hccl⟩, ?_, ?_⟩
  · intro b hb
    rw [hcclo b hb, hother2 b hb]
    exact getStack_congr rfl b
  · intro id hid
    rw [hcclt id]
    apply htab2
    exact hid

/-! ## The `_done` record only grows along a conversion -/

/-- Key containment between `_done` records. -/
def DoneLe (d1 d2 : DoneMap) : Prop :=
  ∀ k ∈ d1.map Prod.fst, k ∈ d2.map Prod.fst

theorem doneLe_of_doneInsert (m : DoneMap) (k : String) (slot : ℕ) :
    DoneLe m (doneInsert m k slot) := by
  intro x hx
  have h1 : x ∈ insert k (m.map Prod.fst).toFinset :=
    Finset.mem_insert_of_mem (List.mem_toFinset.2 hx)
  rw [← doneKeys_doneInsert] at h1
  exact List.mem_toFinset.1 h1

/-- The record facts carried through one loop of the table branches: with a
well-behaved `push` (the recursive call), the fold keeps the shared record
growing and positive. -/
theorem pushObjAux_done_props
    (push : LuaState → ℕ → JSValue → PushOpts → Res (LuaState × Option DoneMap))
    (addr tableSlot : ℕ)
    (Hpush : ∀ st v opts m st' d', opts.done = some m →
      push st addr v opts = Res.ok (st', d') →
      ∃ m', d' = some m' ∧ DoneLe m m' ∧ (donePosB m = true → donePosB m' = true))
    (fields : List (String × JSValue)) :
    ∀ (st : LuaState) (d : DoneMap) (st2 : LuaState) (d2 : DoneMap),
      pushObjAux push addr tableSlot st fields d = Res.ok (st2, d2) →
      DoneLe d d2 ∧ (donePosB d = true → donePosB d2 = true) := by
  induction fields with
  | nil =>
    intro st d st2 d2 h
    rw [pushObjAux] at h
    cases h
    exact ⟨fun _ hk => hk, fun hp => hp⟩
  | cons p rest ih =>
    obtain ⟨k, v⟩ := p
    intro st d st2 d2 h
    rw [pushObjAux, Res.bind_eq_ok] at h
    obtain ⟨p1, _, h⟩ := h
    rw [Res.bind_eq_ok] at h
    obtain ⟨p2, h2, h⟩ := h
    rw [Res.bind_eq_ok] at h
    obtain ⟨st3, _, h⟩ := h
    obtain ⟨mv, hdv, hle, hpos⟩ :=
      Hpush p1.1 v ⟨some d, false, false, false⟩ d p2.1 p2.2 rfl h2
    rw [hdv] at h
    simp only [Option.getD_some] at h
    obtain ⟨hle2, hpos2⟩ := ih st3 mv st2 d2 h
    exact ⟨fun x hx => hle2 x (hle x hx), fun hp => hpos2 (hpos hp)⟩

/-- Same facts for the array loop. -/
theorem pushArrayAux_done_props
    (push : LuaState → ℕ → JSValue → PushOpts → Res (LuaState × Option DoneMap))
    (addr tableSlot : ℕ)
    (Hpush : ∀ st v opts m st' d', opts.done = some m →
      push st addr v opts = Res.ok (st', d') →
      ∃ m', d' = some m' ∧ DoneLe m m' ∧ (donePosB m = true → donePosB m' = true))
    (elems : List JSValue) :
    ∀ (st : LuaState) (i : ℕ) (d : DoneMap) (st2 : LuaState) (d2 : DoneMap),
      pushArrayAux push addr tableSlot st elems i d = Res.ok (st2, d2) →
      DoneLe d d2 ∧ (donePosB d = true → donePosB d2 = true) := by
  induction elems with
  | nil =>
    intro st i d st2 d2 h
    rw [pushArrayAux] at h
    cases h
    exact ⟨fun _ hk => hk, fun hp => hp⟩
  | cons v rest ih =>
    intro st i d st2 d2 h
    rw [pushArrayAux, Res.bind_eq_ok] at h
    obtain ⟨p1, _, h⟩ := h
    rw [Res.bind_eq_ok] at h
    obtain ⟨p2, h2, h⟩ := h
    rw [Res.bind_eq_ok] at h
    obtain ⟨st3, _, h⟩ := h
    obtain ⟨mv, hdv, hle, hpos⟩ :=
      Hpush p1.1 v ⟨some d, false, false, false⟩ d p2.1 p2.2 rfl h2
    rw [hdv] at h
    simp only [Option.getD_some] at h
    obtain ⟨hle2, hpos2⟩ := ih st3 (i + 1) mv st2 d2 h
    exact ⟨fun x hx => hle2 x (hle x hx), fun hp => hpos2 (hpos hp)⟩

/-- A successful `pushValue` that was handed a `_done` record hands back the
same record object, with at least the same keys, still positive: the source
mutates the record in place and never deletes from it. -/
theorem push_done_props : ∀ (fuel : ℕ) (env : Env) (addr : ℕ) (st : LuaState) (v : JSValue)
    (opts : PushOpts) (m : DoneMap) (st' : LuaState) (d' : Option DoneMap),
    opts.done = some m →
    pushValueFuel env fuel st addr v opts = Res.ok (st', d') →
    ∃ m', d' = some m' ∧ DoneLe m m' ∧ (donePosB m = true → donePosB m' = true) := by
  intro fuel
  induction fuel with
  | zero =>
    intro env addr st v opts m st' d' hdone h
    simp only [pushValueFuel] at h
    exact absurd h (by simp)
  | succ fuel ih =>
    intro env addr st v opts m st' d' hdone h
    have hrefl : ∃ m', (opts.done = some m') ∧ DoneLe m m' ∧
        (donePosB m = true → donePosB m' = true) :=
      ⟨m, hdone, fun _ hk => hk, fun hp => hp⟩
    cases hdl : doneLookup opts.done (env.strCoerce v) with
    | some slot =>
      simp only [pushValueFuel, hdl] at h
      cases h
      exact hrefl
    | none =>
      cases href : opts.reference with
      | true =>
        simp only [pushValueFuel, hdl] at h
        rw [if_pos href] at h
        rw [Res.bind_eq_ok] at h
        obtain ⟨st1, _, h⟩ := h
        cases h
        exact hrefl
      | false =>
        cases v with
        | undef => simp only [pushValueFuel, hdl] at h; rw [if_neg (by simp [href])] at h; cases h; exact hrefl
        | jsNull => simp only [pushValueFuel, hdl] at h; rw [if_neg (by simp [href])] at h; cases h; exact hrefl
        | num q => simp only [pushValueFuel, hdl] at h; rw [if_neg (by simp [href])] at h; cases h; exact hrefl
        | str s => simp only [pushValueFuel, hdl] at h; rw [if_neg (by simp [href])] at h; cases h; exact hrefl
        | boolean b => simp only [pushValueFuel, hdl] at h; rw [if_neg (by simp [href])] at h; cases h; exact hrefl
        | threadV a => simp only [pushValueFuel, hdl] at h; rw [if_neg (by simp [href])] at h; cases h; exact hrefl
        | bigintV n =>
          simp only [pushValueFuel, hdl] at h
          rw [if_neg (by simp [href])] at h
          exact absurd h (by simp)
        | symbolV n =>
          simp only [pushValueFuel, hdl] at h
          rw [if_neg (by simp [href])] at h
          exact absurd h (by simp)
        | promiseV pid =>
          obtain ⟨hd, -, -, -⟩ := push_promise_inv hdl href h
          subst hd
          exact hrefl
        | funcV fid =>
          obtain ⟨hd, -, -, -⟩ := push_func_inv hdl href h
          subst hd
          exact hrefl
        | obj oid =>
          simp only [pushValueFuel, hdl] at h
          rw [if_neg (by simp [href])] at h
          rw [hdone] at h
          simp only [Option.getD_some] at h
          cases hob : (env.objs.lookup oid).getD (ObjData.plain []) with
          | arr elems =>
            simp only [hob] at h
            rw [Res.bind_eq_ok] at h
            obtain ⟨p, hfold, h⟩ := h
            cases h
            obtain ⟨hle, hpos⟩ := pushArrayAux_done_props (pushValueFuel env fuel) addr
              (st.gettop addr + 1) (fun st0 v0 o0 m0 s0 dd0 => ih env addr st0 v0 o0 m0 s0 dd0)
              elems _ 0 _ p.1 p.2 hfold
            refine ⟨p.2, rfl, ?_, ?_⟩
            · intro x hx
              exact hle x (doneLe_of_doneInsert m _ _ x hx)
            · intro hp
              exact hpos (donePosB_doneInsert hp (by omega))
          | plain fields =>
            simp only [hob] at h
            rw [Res.bind_eq_ok] at h
            obtain ⟨p, hfold, h⟩ := h
            cases h
            obtain ⟨hle, hpos⟩ := pushObjAux_done_props (pushValueFuel env fuel) addr
              (st.gettop addr + 1) (fun st0 v0 o0 m0 s0 dd0 => ih env addr st0 v0 o0 m0 s0 dd0)
              fields _ _ p.1 p.2 hfold
            refine ⟨p.2, rfl, ?_, ?_⟩
            · intro x hx
              exact hle x (doneLe_of_doneInsert m _ _ x hx)
            · intro hp
              exact hpos (donePosB_doneInsert hp (by omega))

theorem Res.bind_ne_fuelOut_of {α β : Type} {x : Res α} {f : α → Res β}
    (hx : x ≠ Res.fuelOut) (hf : ∀ a, x = Res.ok a → f a ≠ Res.fuelOut) :
    x.bind f ≠ Res.fuelOut := by
  cases x with
  | ok a => exact hf a rfl
  | err m s => simp [Res.bind]
  | fuelOut => exact absurd rfl hx

/-- Every branch of `pushValue` except the table branch performs no
conversion recursion, so one unit of fuel suffices for it. -/
theorem pushValueFuel_nonobj_ne_fuelOut (env : Env) (fuel : ℕ) (st : LuaState) (addr : ℕ)
    (v : JSValue) (opts : PushOpts) (hv : ∀ id, v ≠ JSValue.obj id) :
    pushValueFuel env (fuel + 1) st addr v opts ≠ Res.fuelOut := by
  cases hdl : doneLookup opts.done (env.strCoerce v) with
  | some slot => simp [pushValueFuel, hdl]
  | none =>
    cases href : opts.reference with
    | true =>
      simp only [pushValueFuel, hdl]
      rw [if_pos href]
      exact Res.bind_ne_fuelOut (createAndPushJsReference_ne_fuelOut _ _ _) (fun a => by simp)
    | false =>
      cases v with
      | undef => simp [pushValueFuel, hdl, href]
      | jsNull => simp [pushValueFuel, hdl, href]
      | num q => simp [pushValueFuel, hdl, href]
      | str s => simp [pushValueFuel, hdl, href]
      | boolean b => simp [pushValueFuel, hdl, href]
      | threadV a => simp [pushValueFuel, hdl, href]
      | bigintV n => simp [pushValueFuel, hdl, href]
      | symbolV n => simp [pushValueFuel, hdl, href]
      | obj oid => exact absurd rfl (hv oid)
      | promiseV pid =>
        simp only [pushValueFuel, hdl]
        rw [if_neg (by simp [href])]
        simp only [LuaState.cmRef, LuaState.newUserdataWithPointer, LuaState.luaL_getmetatable,
          metatables_push]
        cases hmt : (List.lookup LuaMetatables.Promise st.metatables) with
        | none => simp
        | some mid =>
          exact Res.bind_ne_fuelOut (lua_setmetatable_ne_fuelOut _ _ _) (fun a => by simp)
      | funcV fid =>
        simp only [pushValueFuel, hdl]
        rw [if_neg (by simp [href])]
        simp only [LuaState.addFunction]
        exact Res.bind_ne_fuelOut (createAndPushFunctionReference_ne_fuelOut _ _ _)
          (fun a => by simp)

theorem mem_keySet_of_validIn {env : Env} {oid : ℕ}
    (hv : JSValue.validInB env (JSValue.obj oid) = true) :
    env.strCoerce (JSValue.obj oid) ∈ env.keySet := by
  simp only [JSValue.validInB, JSValue.objIds, List.all_eq_true, List.mem_singleton,
    forall_eq] at hv
  obtain ⟨data, hl⟩ := Option.isSome_iff_exists.1 hv
  have hmem : (oid, data) ∈ env.objs := lookup_mem_of_eq_some hl
  simp only [Env.keySet, List.mem_toFinset, List.mem_map]
  exact ⟨(oid, data), hmem, rfl⟩

theorem children_validIn {env : Env} {oid : ℕ} {data : ObjData}
    (henv : Env.validB env = true) (hmem : (oid, data) ∈ env.objs) :
    ∀ c ∈ data.children, JSValue.validInB env c = true := by
  simp only [Env.validB, List.all_eq_true] at henv
  intro c hc
  have := henv (oid, data) hmem c hc
  simp only [JSValue.validInB, List.all_eq_true]
  intro i hi
  exact this i hi

/-- Fuel adequacy for the plain-object loop, given it for the recursive call
at the loop's fuel. -/
theorem pushObjAux_adequate (env : Env) (fuel addr tableSlot : ℕ)
    (IH : ∀ (st : LuaState) (v : JSValue) (d : DoneMap),
      JSValue.validInB env v = true → donePosB d = true →
      pushMeasure env (some d) < fuel →
      pushValueFuel env fuel st addr v ⟨some d, false, false, false⟩ ≠ Res.fuelOut)
    (hfuel : 0 < fuel) (fields : List (String × JSValue)) :
    ∀ (st : LuaState) (d : DoneMap),
      (∀ p ∈ fields, JSValue.validInB env p.2 = true) → donePosB d = true →
      pushMeasure env (some d) < fuel →
      pushObjAux (pushValueFuel env fuel) addr tableSlot st fields d ≠ Res.fuelOut := by
  induction fields with
  | nil =>
    intro st d _ _ _
    rw [pushObjAux]
    simp
  | cons p rest ihf =>
    obtain ⟨k, v⟩ := p
    intro st d hvalid hpos hmeas
    obtain ⟨f1, rfl⟩ : ∃ f1, fuel = f1 + 1 := ⟨fuel - 1, by omega⟩
    rw [pushObjAux]
    apply Res.bind_ne_fuelOut_of
    · exact pushValueFuel_nonobj_ne_fuelOut env f1 st addr (JSValue.str k) PushOpts.none
        (by intro id hk; cases hk)
    intro p1 _
    apply Res.bind_ne_fuelOut_of
    · exact IH p1.1 v d (hvalid (k, v) (List.mem_cons_self _ _)) hpos hmeas
    intro p2 h2
    apply Res.bind_ne_fuelOut_of
    · exact lua_settable_ne_fuelOut _ _ _
    intro st3 _
    obtain ⟨mv, hdv, hle, hposf⟩ :=
      push_done_props (f1 + 1) env addr p1.1 v ⟨some d, false, false, false⟩ d p2.1 p2.2 rfl
        (by rw [← h2])
    rw [hdv, Option.getD_some]
    exact ihf st3 mv (fun q hq => hvalid q (List.mem_cons_of_mem _ hq)) (hposf hpos)
      (lt_of_le_of_lt (pushMeasure_mono env hle) hmeas)

/-- Fuel adequacy for the array loop. -/
theorem pushArrayAux_adequate (env : Env) (fuel addr tableSlot : ℕ)
    (IH : ∀ (st : LuaState) (v : JSValue) (d : DoneMap),
      JSValue.validInB env v = true → donePosB d = true →
      pushMeasure env (some d) < fuel →
      pushValueFuel env fuel st addr v ⟨some d, false, false, false⟩ ≠ Res.fuelOut)
    (hfuel : 0 < fuel) (elems : List JSValue) :
    ∀ (st : LuaState) (i : ℕ) (d : DoneMap),
      (∀ c ∈ elems, JSValue.validInB env c = true) → donePosB d = true →
      pushMeasure env (some d) < fuel →
      pushArrayAux (pushValueFuel env fuel) addr tableSlot st elems i d ≠ Res.fuelOut := by
  induction elems with
  | nil =>
    intro st i d _ _ _
    rw [pushArrayAux]
    simp
  | cons v rest ihf =>
    intro st i d hvalid hpos hmeas
    obtain ⟨f1, rfl⟩ : ∃ f1, fuel = f1 + 1 := ⟨fuel - 1, by omega⟩
    rw [pushArrayAux]
    apply Res.bind_ne_fuelOut_of
    · exact pushValueFuel_nonobj_ne_fuelOut env f1 st addr (JSValue.num (i + 1)) PushOpts.none
        (by intro id hk; cases hk)
    intro p1 _
    apply Res.bind_ne_fuelOut_of
    · exact IH p1.1 v d (hvalid v (List.mem_cons_self _ _)) hpos hmeas
    intro p2 h2
    apply Res.bind_ne_fuelOut_of
    · exact lua_settable_ne_fuelOut _ _ _
    intro st3 _
    obtain ⟨mv, hdv, hle, hposf⟩ :=
      push_done_props (f1 + 1) env addr p1.1 v ⟨some d, false, false, false⟩ d p2.1 p2.2 rfl
        (by rw [← h2])
    rw [hdv, Option.getD_some]
    exact ihf st3 (i + 1) mv (fun c hc => hvalid c (List.mem_cons_of_mem _ hc)) (hposf hpos)
      (lt_of_le_of_lt (pushMeasure_mono env hle) hmeas)

/-- Fuel adequacy for the whole conversion: on a well-formed host graph,
`pushValue` completes — terminates — whenever the fuel exceeds the number of
producible cycle-guard keys not yet recorded; the measure shrinks at each
table recursion because the key is recorded before descending. -/
theorem push_adequate : ∀ (fuel : ℕ) (env : Env), Env.validB env = true →
    ∀ (st : LuaState) (addr : ℕ) (v : JSValue) (opts : PushOpts),
    JSValue.validInB env v = true → donePosOptB opts.done = true →
    pushMeasure env opts.done < fuel →
    pushValueFuel env fuel st addr v opts ≠ Res.fuelOut := by
  intro fuel
  induction fuel with
  | zero =>
    intro env _ st addr v opts _ _ hmeas
    omega
  | succ fuel ih =>
    intro env henv st addr v opts hv hpos hmeas
    cases hobj : v with
    | obj oid =>
      cases hdl : doneLookup opts.done (env.strCoerce (JSValue.obj oid)) with
      | some slot => simp [pushValueFuel, hdl]
      | none =>
        cases href : opts.reference with
        | true =>
          simp only [pushValueFuel, hdl]
          rw [if_pos href]
          exact Res.bind_ne_fuelOut (createAndPushJsReference_ne_fuelOut _ _ _) (fun a => by simp)
        | false =>
          simp only [pushValueFuel, hdl]
          rw [if_neg (by simp [href])]
          -- the recorded measure strictly shrinks under the new key
          have hkey : env.strCoerce (JSValue.obj oid) ∈ env.keySet := by
            apply mem_keySet_of_validIn
            rw [← hobj]
            exact hv
          have hd0pos : donePosB (opts.done.getD []) = true := by
            cases hopt : opts.done with
            | none => rfl
            | some m => rw [hopt] at hpos; exact hpos
          have habs : env.strCoerce (JSValue.obj oid) ∉ (opts.done.getD []).map Prod.fst := by
            cases hopt : opts.done with
            | none => simp
            | some m =>
              rw [hopt] at hdl hd0pos
              exact not_mem_of_doneLookup_none hd0pos hdl
          have hmeas0 : pushMeasure env (some (opts.done.getD [])) < fuel + 1 := by
            cases hopt : opts.done with
            | none =>
              rw [hopt] at hmeas
              simpa [pushMeasure, doneKeys] using hmeas
            | some m => rw [hopt] at hmeas; exact hmeas
          have hlt := pushMeasure_doneInsert_lt env (st.gettop addr + 1) hkey habs
          have hmeas1 : pushMeasure env
              (some (doneInsert (opts.done.getD []) (env.strCoerce (JSValue.obj oid))
                (st.gettop addr + 1))) < fuel := by omega
          have hfuel : 0 < fuel := by omega
          have hd1pos : donePosB (doneInsert (opts.done.getD [])
              (env.strCoerce (JSValue.obj oid)) (st.gettop addr + 1)) = true :=
            donePosB_doneInsert hd0pos (by omega)
          have hv' : JSValue.validInB env (JSValue.obj oid) = true := by
            rw [← hobj]; exact hv
          simp only [JSValue.validInB, JSValue.objIds, List.all_eq_true,
            List.mem_singleton, forall_eq] at hv'
          obtain ⟨data, hl⟩ := Option.isSome_iff_exists.1 hv'
          have hmem : (oid, data) ∈ env.objs := lookup_mem_of_eq_some hl
          have hchild := children_validIn henv hmem
          rw [hl, Option.getD_some]
          cases data with
          | arr elems =>
            apply Res.bind_ne_fuelOut_of
            · exact pushArrayAux_adequate env fuel addr (st.gettop addr + 1)
                (fun s0 v0 d0 hv0 hp0 hm0 =>
                  ih env henv s0 addr v0 ⟨some d0, false, false, false⟩ hv0 hp0 hm0)
                hfuel elems _ 0 _
                (fun c hc => hchild c (by simpa [ObjData.children] using hc))
                hd1pos hmeas1
            intro p _
            simp
          | plain fields =>
            apply Res.bind_ne_fuelOut_of
            · exact pushObjAux_adequate env fuel addr (st.gettop addr + 1)
                (fun s0 v0 d0 hv0 hp0 hm0 =>
                  ih env henv s0 addr v0 ⟨some d0, false, false, false⟩ hv0 hp0 hm0)
                hfuel fields _ _
                (fun p hp => hchild p.2 (by
                  simp only [ObjData.children, List.mem_map]
                  exact ⟨p, hp, rfl⟩))
                hd1pos hmeas1
            intro p _
            simp
    | undef => exact pushValueFuel_nonobj_ne_fuelOut env fuel st addr _ opts (by intro id h; cases h)
    | jsNull => exact pushValueFuel_nonobj_ne_fuelOut env fuel st addr _ opts (by intro id h; cases h)
    | num q => exact pushValueFuel_nonobj_ne_fuelOut env fuel st addr _ opts (by intro id h; cases h)
    | str s => exact pushValueFuel_nonobj_ne_fuelOut env fuel st addr _ opts (by intro id h; cases h)
    | boolean b => exact pushValueFuel_nonobj_ne_fuelOut env fuel st addr _ opts (by intro id h; cases h)
    | bigintV n => exact pushValueFuel_nonobj_ne_fuelOut env fuel st addr _ opts (by intro id h; cases h)
    | symbolV n => exact pushValueFuel_nonobj_ne_fuelOut env fuel st addr _ opts (by intro id h; cases h)
    | threadV a => exact pushValueFuel_nonobj_ne_fuelOut env fuel st addr _ opts (by intro id h; cases h)
    | promiseV pid => exact pushValueFuel_nonobj_ne_fuelOut env fuel st addr _ opts (by intro id h; cases h)
    | funcV fid => exact pushValueFuel_nonobj_ne_fuelOut env fuel st addr _ opts (by intro id h; cases h)

/-- The keys of one `done` record of `getTableValue` all appear in
another. -/
def getDoneLe (d d2 : GetDone) : Prop :=
  ∀ k, k ∈ d.map Prod.fst → k ∈ d2.map Prod.fst

theorem getDoneLe_refl (d : GetDone) : getDoneLe d d := fun _ h => h

theorem getDoneLe_trans {a b c : GetDone} (h1 : getDoneLe a b) (h2 : getDoneLe b c) :
    getDoneLe a c := fun k hk => h2 k (h1 k hk)

theorem getDoneLe_cons (d : GetDone) (p : ℕ × HostRes) : getDoneLe d (p :: d) :=
  fun k hk => by simp only [List.map_cons, List.mem_cons]; exact Or.inr hk

theorem getMeasure_mono {s s2 : LuaState} {d d2 : GetDone} (ht : s2.tables = s.tables)
    (hle : getDoneLe d d2) : getMeasure s2 d2 ≤ getMeasure s d := by
  unfold getMeasure LuaState.tidSet
  rw [ht]
  apply Finset.card_le_card
  intro x hx
  simp only [Finset.mem_sdiff, List.mem_toFinset] at hx ⊢
  exact ⟨hx.1, fun hmem => hx.2 (hle x hmem)⟩

theorem getMeasure_cons_lt {s : LuaState} {d : GetDone} {tid : ℕ} {r : HostRes}
    (hin : tid ∈ s.tidSet) (hout : tid ∉ d.map Prod.fst) :
    getMeasure s ((tid, r) :: d) < getMeasure s d := by
  unfold getMeasure
  apply Finset.card_lt_card
  constructor
  · intro x hx
    simp only [Finset.mem_sdiff, List.mem_toFinset, List.map_cons, List.mem_cons] at hx ⊢
    exact ⟨hx.1, fun hmem => hx.2 (Or.inr hmem)⟩
  · intro hsub
    have hm : tid ∈ s.tidSet \ ((d.map Prod.fst).toFinset) := by
      simp only [Finset.mem_sdiff, List.mem_toFinset]
      exact ⟨hin, hout⟩
    have h2 := hsub hm
    rw [Finset.mem_sdiff] at h2
    refine h2.2 ?_
    rw [List.mem_toFinset, List.map_cons]
    exact List.mem_cons_self _ _

/-- Well-formedness of the heap depends only on the table heap. -/
theorem wfB_congr {s s2 : LuaState} (ht : s2.tables = s.tables) : s2.wfB = s.wfB := by
  unfold LuaState.wfB
  rw [ht]

/-- The entry loop of `getTableValue` preserves the table heap and only adds
`done` entries, provided each recursive conversion does. -/
theorem getTableFields_props
    (conv : LuaState → LuaValue → GetDone → HostHeap →
      Res (LuaState × HostRes × GetDone × HostHeap))
    (Hp : ∀ s l d h q, conv s l d h = Res.ok q → q.1.tables = s.tables ∧ getDoneLe d q.2.2.1) :
    ∀ (entries : List (LuaValue × LuaValue)) (st : LuaState) (acc : List (HostRes × HostRes))
      (d : GetDone) (h : HostHeap) (q : LuaState × List (HostRes × HostRes) × GetDone × HostHeap),
      getTableFields conv st entries acc d h = Res.ok q →
      q.1.tables = st.tables ∧ getDoneLe d q.2.2.1 := by
  intro entries
  induction entries with
  | nil =>
    intro st acc d h q hq
    rw [getTableFields] at hq
    obtain rfl : (st, acc, d, h) = q := by injection hq
    exact ⟨rfl, getDoneLe_refl d⟩
  | cons p rest ih =>
    obtain ⟨k, v⟩ := p
    intro st acc d h q hq
    rw [getTableFields] at hq
    rw [Res.bind_eq_ok] at hq
    obtain ⟨q1, hq1, hq⟩ := hq
    rw [Res.bind_eq_ok] at hq
    obtain ⟨q2, hq2, hq⟩ := hq
    obtain ⟨ht1, hle1⟩ := Hp st k d h q1 hq1
    obtain ⟨ht2, hle2⟩ := Hp q1.1 v q1.2.2.1 q1.2.2.2 q2 hq2
    obtain ⟨ht3, hle3⟩ := ih q2.1 (acc ++ [(q1.2.1, q2.2.1)]) q2.2.2.1 q2.2.2.2 q hq
    exact ⟨ht3.trans (ht2.trans ht1), getDoneLe_trans hle1 (getDoneLe_trans hle2 hle3)⟩

/-- A successful `getValue` dispatch preserves the table heap and only adds
entries to the `done` record (`_done[pointer]` written before recursing). -/
theorem get_props : ∀ (fuel : ℕ) (st : LuaState) (ty : LuaType) (lv : Option LuaValue)
    (o : GetOpts) (d : GetDone) (h : HostHeap)
    (q : LuaState × HostRes × GetDone × HostHeap),
    getHostVal fuel st ty lv o d h = Res.ok q →
    q.1.tables = st.tables ∧ getDoneLe d q.2.2.1 := by
  intro fuel
  induction fuel with
  | zero =>
    intro st ty lv o d h q hq
    rw [getHostVal] at hq
    cases hq
  | succ fuel ih =>
    intro st ty lv o d h q hq
    cases ty with
    | none =>
      rw [getHostVal] at hq
      obtain rfl : (st, HostRes.undef, d, h) = q := by injection hq
      exact ⟨rfl, getDoneLe_refl d⟩
    | nil =>
      rw [getHostVal] at hq
      obtain rfl : (st, HostRes.jsNull, d, h) = q := by injection hq
      exact ⟨rfl, getDoneLe_refl d⟩
    | number =>
      rw [getHostVal] at hq
      obtain rfl : (st, HostRes.num (LuaState.lua_tonumberx lv), d, h) = q := by injection hq
      exact ⟨rfl, getDoneLe_refl d⟩
    | string =>
      rw [getHostVal] at hq
      obtain rfl : (st, HostRes.str (LuaState.lua_tolstring lv), d, h) = q := by injection hq
      exact ⟨rfl, getDoneLe_refl d⟩
    | boolean =>
      rw [getHostVal] at hq
      obtain rfl : (st, HostRes.boolean (LuaState.lua_toboolean lv), d, h) = q := by
        injection hq
      exact ⟨rfl, getDoneLe_refl d⟩
    | lightuserdata =>
      have hq2 : (Res.ok (st, HostRes.ptr (luaTopointer lv), d, h) :
          Res (LuaState × HostRes × GetDone × HostHeap)) = Res.ok q := hq
      obtain rfl : (st, HostRes.ptr (luaTopointer lv), d, h) = q := by injection hq2
      exact ⟨rfl, getDoneLe_refl d⟩
    | thread =>
      obtain ⟨raw, sync⟩ := o
      cases lv with
      | none => exact Res.noConfusion hq
      | some l =>
        cases l with
        | thread a =>
          cases raw with
          | true =>
            obtain rfl : (st, HostRes.ptr a, d, h) = q := Res.ok.inj hq
            exact ⟨rfl, getDoneLe_refl d⟩
          | false =>
            obtain rfl : (st, HostRes.threadW a, d, h) = q := Res.ok.inj hq
            exact ⟨rfl, getDoneLe_refl d⟩
        | nil => exact Res.noConfusion hq
        | integer n => exact Res.noConfusion hq
        | number x => exact Res.noConfusion hq
        | str s => exact Res.noConfusion hq
        | boolean b => exact Res.noConfusion hq
        | table t => exact Res.noConfusion hq
        | userdata u => exact Res.noConfusion hq
        | cfunction p u => exact Res.noConfusion hq
        | luafunc f => exact Res.noConfusion hq
    | userdata =>
      rw [getHostVal] at hq
      cases h1 : st.testudata lv LuaMetatables.JsReference with
      | some rp =>
        simp only [h1] at hq
        obtain rfl : (st, HostRes.fromRegistry ((st.cmGetRef rp).getD JSValue.undef), d, h)
            = q := by injection hq
        exact ⟨rfl, getDoneLe_refl d⟩
      | none =>
        simp only [h1] at hq
        cases h2 : st.testudata lv LuaMetatables.Promise with
        | some rp =>
          simp only [h2] at hq
          obtain rfl : (st, HostRes.fromRegistry ((st.cmGetRef rp).getD JSValue.undef), d, h)
              = q := by injection hq
          exact ⟨rfl, getDoneLe_refl d⟩
        | none =>
          simp only [h2] at hq
          obtain rfl : (st, HostRes.ptr (luaTopointer lv), d, h) = q := by injection hq
          exact ⟨rfl, getDoneLe_refl d⟩
    | function =>
      obtain ⟨raw, sync⟩ := o
      cases raw with
      | true =>
        obtain rfl : (st, HostRes.ptr (luaTopointer lv), d, h) = q := Res.ok.inj hq
        exact ⟨rfl, getDoneLe_refl d⟩
      | false =>
        cases lv with
        | none => exact Res.noConfusion hq
        | some f =>
          obtain rfl : ((st.luaL_ref f).1, HostRes.jsFunc (st.luaL_ref f).2, d, h) = q :=
            Res.ok.inj hq
          refine ⟨?_, getDoneLe_refl d⟩
          simp [LuaState.luaL_ref]
    | table =>
      obtain ⟨raw, sync⟩ := o
      cases raw with
      | true =>
        obtain rfl : (st, HostRes.ptr (luaTopointer lv), d, h) = q := Res.ok.inj hq
        exact ⟨rfl, getDoneLe_refl d⟩
      | false =>
        cases lv with
        | none => exact Res.noConfusion hq
        | some l =>
          cases l with
          | table tid =>
            simp only [getHostVal] at hq
            cases hdl : List.lookup (luaTopointer (some (LuaValue.table tid))) d with
            | some built =>
              rw [hdl] at hq
              obtain rfl : (st, built, d, h) = q := Res.ok.inj hq
              exact ⟨rfl, getDoneLe_refl d⟩
            | none =>
              rw [hdl] at hq
              obtain ⟨qf, hqf, hq⟩ := Res.bind_eq_ok.1 hq
              obtain ⟨ht1, hle1⟩ := getTableFields_props _
                (fun s l2 d2 h2 q2 hc => ih s (luaTypeOf (some l2)) (some l2) ⟨false, false⟩
                  d2 h2 q2 hc)
                _ st []
                ((luaTopointer (some (LuaValue.table tid)), HostRes.objRef h.next) :: d)
                ⟨(h.next, []) :: h.objs, h.next + 1⟩ qf hqf
              obtain rfl : (qf.1, HostRes.objRef h.next, qf.2.2.1,
                  (⟨(h.next, qf.2.1) :: qf.2.2.2.objs.filter (fun p => p.1 ≠ h.next),
                    qf.2.2.2.next⟩ : HostHeap)) = q := by injection hq
              exact ⟨ht1, getDoneLe_trans (getDoneLe_cons d _) hle1⟩
          | nil => exact Res.noConfusion hq
          | integer n => exact Res.noConfusion hq
          | number x => exact Res.noConfusion hq
          | str s => exact Res.noConfusion hq
          | boolean b => exact Res.noConfusion hq
          | thread a => exact Res.noConfusion hq
          | userdata u => exact Res.noConfusion hq
          | cfunction p u => exact Res.noConfusion hq
          | luafunc f => exact Res.noConfusion hq

/-- Fuel adequacy for the entry loop of `getTableValue`, given it for the
recursive conversion at the loop's fuel. -/
theorem getTableFields_adequate (fuel : ℕ) (T : List (ℕ × TableObj)) (M : ℕ)
    (Hadeq : ∀ (s : LuaState) (l : LuaValue) (d : GetDone) (h : HostHeap), s.tables = T →
      (∀ tid, l = LuaValue.table tid → (T.lookup tid).isSome) →
      getMeasure s d ≤ M →
      getHostVal fuel s (luaTypeOf (some l)) (some l) ⟨false, false⟩ d h ≠ Res.fuelOut) :
    ∀ (entries : List (LuaValue × LuaValue)) (st : LuaState) (acc : List (HostRes × HostRes))
      (d : GetDone) (h : HostHeap),
      st.tables = T →
      (∀ p ∈ entries, (∀ i ∈ LuaValue.tableIds p.1, (T.lookup i).isSome) ∧
        (∀ i ∈ LuaValue.tableIds p.2, (T.lookup i).isSome)) →
      getMeasure st d ≤ M →
      getTableFields (fun s2 l2 d2 h2 =>
          getHostVal fuel s2 (luaTypeOf (some l2)) (some l2) ⟨false, false⟩ d2 h2)
        st entries acc d h ≠ Res.fuelOut := by
  intro entries
  induction entries with
  | nil =>
    intro st acc d h _ _ _
    rw [getTableFields]
    simp
  | cons p rest ih =>
    obtain ⟨k, v⟩ := p
    intro st acc d h hT hids hm
    rw [getTableFields]
    apply Res.bind_ne_fuelOut_of
    · exact Hadeq st k d h hT
        (fun tid htid => (hids (k, v) (List.mem_cons_self _ _)).1 tid
          (by rw [htid]; simp [LuaValue.tableIds]))
        hm
    intro q1 hq1
    obtain ⟨ht1, hle1⟩ := get_props fuel st (luaTypeOf (some k)) (some k) ⟨false, false⟩
      d h q1 hq1
    apply Res.bind_ne_fuelOut_of
    · exact Hadeq q1.1 v q1.2.2.1 q1.2.2.2 (ht1.trans hT)
        (fun tid htid => (hids (k, v) (List.mem_cons_self _ _)).2 tid
          (by rw [htid]; simp [LuaValue.tableIds]))
        (le_trans (getMeasure_mono ht1 hle1) hm)
    intro q2 hq2
    obtain ⟨ht2, hle2⟩ := get_props fuel q1.1 (luaTypeOf (some v)) (some v) ⟨false, false⟩
      q1.2.2.1 q1.2.2.2 q2 hq2
    exact ih q2.1 (acc ++ [(q1.2.1, q2.2.1)]) q2.2.2.1 q2.2.2.2 (ht2.trans (ht1.trans hT))
      (fun p hp => hids p (List.mem_cons_of_mem _ hp))
      (le_trans (getMeasure_mono ht2 hle2)
        (le_trans (getMeasure_mono ht1 hle1) hm))

/-- Fuel adequacy for the whole guest-to-host conversion: `getTableValue`
terminates on any guest table of a well-formed heap — the `done` record gains
the native pointer before the entry loop recurses, and the measure of not yet
recorded live tables strictly shrinks. -/
theorem get_adequate : ∀ (fuel : ℕ) (st : LuaState) (ty : LuaType) (lv : Option LuaValue)
    (o : GetOpts) (d : GetDone) (h : HostHeap),
    st.wfB = true →
    (∀ tid, lv = some (LuaValue.table tid) → ((st.tables.lookup tid).isSome : Prop)) →
    getMeasure st d < fuel →
    getHostVal fuel st ty lv o d h ≠ Res.fuelOut := by
  intro fuel
  induction fuel with
  | zero =>
    intro st ty lv o d h _ _ hm
    omega
  | succ fuel ih =>
    intro st ty lv o d h hwf hlook hm
    cases ty with
    | none => rw [getHostVal]; simp
    | nil => rw [getHostVal]; simp
    | number => rw [getHostVal]; simp
    | string => rw [getHostVal]; simp
    | boolean => rw [getHostVal]; simp
    | lightuserdata => intro hcon; exact Res.noConfusion hcon
    | thread =>
      obtain ⟨raw, sync⟩ := o
      cases lv with
      | none => exact fun hcon => Res.noConfusion hcon
      | some l =>
        cases l with
        | thread a =>
          cases raw with
          | true => exact fun hcon => Res.noConfusion hcon
          | false => exact fun hcon => Res.noConfusion hcon
        | nil => exact fun hcon => Res.noConfusion hcon
        | integer n => exact fun hcon => Res.noConfusion hcon
        | number x => exact fun hcon => Res.noConfusion hcon
        | str s => exact fun hcon => Res.noConfusion hcon
        | boolean b => exact fun hcon => Res.noConfusion hcon
        | table t => exact fun hcon => Res.noConfusion hcon
        | userdata u => exact fun hcon => Res.noConfusion hcon
        | cfunction p u => exact fun hcon => Res.noConfusion hcon
        | luafunc f => exact fun hcon => Res.noConfusion hcon
    | userdata =>
      rw [getHostVal]
      cases h1 : st.testudata lv LuaMetatables.JsReference with
      | some rp => simp [h1]
      | none =>
        cases h2 : st.testudata lv LuaMetatables.Promise with
        | some rp => simp [h1, h2]
        | none => simp [h1, h2]
    | function =>
      obtain ⟨raw, sync⟩ := o
      cases raw with
      | true => exact fun hcon => Res.noConfusion hcon
      | false =>
        cases lv with
        | none => exact fun hcon => Res.noConfusion hcon
        | some f => exact fun hcon => Res.noConfusion hcon
    | table =>
      obtain ⟨raw, sync⟩ := o
      cases raw with
      | true => exact fun hcon => Res.noConfusion hcon
      | false =>
        cases lv with
        | none => exact fun hcon => Res.noConfusion hcon
        | some l =>
          cases l with
          | table tid =>
            have hsome := hlook tid rfl
            simp only [getHostVal]
            cases hdl : List.lookup (luaTopointer (some (LuaValue.table tid))) d with
            | some built => exact fun hcon => Res.noConfusion hcon
            | none =>
              apply Res.bind_ne_fuelOut_of
              · -- the loop itself cannot run out of fuel
                obtain ⟨tobj, htobj⟩ := Option.isSome_iff_exists.1 hsome
                have hmem : (tid, tobj) ∈ st.tables := lookup_mem_of_eq_some htobj
                have hwf' := hwf
                unfold LuaState.wfB at hwf'
                rw [List.all_eq_true] at hwf'
                have hent := hwf' (tid, tobj) hmem
                rw [List.all_eq_true] at hent
                have hdrop : getMeasure st
                    ((luaTopointer (some (LuaValue.table tid)), HostRes.objRef h.next) :: d)
                    < getMeasure st d := by
                  apply getMeasure_cons_lt
                  · simp only [luaTopointer, LuaState.tidSet, List.mem_toFinset, List.mem_map]
                    exact ⟨(tid, tobj), hmem, rfl⟩
                  · simp only [luaTopointer]
                    exact lookup_eq_none_not_mem hdl
                apply getTableFields_adequate fuel st.tables
                  (getMeasure st
                    ((luaTopointer (some (LuaValue.table tid)), HostRes.objRef h.next) :: d))
                · intro s l2 d2 h2 hT hids2 hm2
                  apply ih s (luaTypeOf (some l2)) (some l2) ⟨false, false⟩ d2 h2
                  · rw [wfB_congr hT]
                    exact hwf
                  · intro tid2 htid2
                    obtain rfl : l2 = LuaValue.table tid2 := by injection htid2
                    rw [hT]
                    exact hids2 tid2 rfl
                  · have : getMeasure s d2 ≤ getMeasure st
                        ((luaTopointer (some (LuaValue.table tid)), HostRes.objRef h.next)
                          :: d) := hm2
                    omega
                · rfl
                · intro p hp
                  have hpent := hent p (by
                    rw [show st.tableAt tid = st.tables.lookup tid from rfl, htobj] at hp
                    exact hp)
                  rw [Bool.and_eq_true, List.all_eq_true, List.all_eq_true] at hpent
                  exact ⟨fun i hi => hpent.1 i hi, fun i hi => hpent.2 i hi⟩
                · exact le_refl _
              intro q _
              simp
          | nil => exact fun hcon => Res.noConfusion hcon
          | integer n => exact fun hcon => Res.noConfusion hcon
          | number x => exact fun hcon => Res.noConfusion hcon
          | str s => exact fun hcon => Res.noConfusion hcon
          | boolean b => exact fun hcon => Res.noConfusion hcon
          | thread a => exact fun hcon => Res.noConfusion hcon
          | userdata u => exact fun hcon => Res.noConfusion hcon
          | cfunction p u => exact fun hcon => Res.noConfusion hcon
          | luafunc f => exact fun hcon => Res.noConfusion hcon

/-! ## C6 — cycle guards of the two conversions -/

/-- A one-node host graph whose single object holds a reference to
itself. -/
def envC6 : Env := ⟨[(0, ObjData.plain [("self", JSValue.obj 0)])], fun _ => "k"⟩

/-- A heap with one guest table whose `self` field refers to the table
itself. -/
def stC6 : LuaState :=
  ⟨[], 1, [(1, ⟨[(LuaValue.str "self", LuaValue.table 1)], Option.none⟩)], [], 2,
    [(LuaMetatables.FunctionReference, 90), (LuaMetatables.JsReference, 91),
      (LuaMetatables.Promise, 92)], [], 1, [], 1, [], 1⟩

/-- C6: conversion converges on cyclic and shared structure in both
directions.  (i) `pushValue` terminates on every well-formed host object
graph — self-referential and shared substructure included — once the fuel
exceeds the number of producible cycle-guard keys; (ii) the guard map is
consulted first, so a host object already recorded (its slot written before
recursing into children) is pushed as a copy of its existing table slot
instead of being converted again; (iii) symmetrically `getTableValue`
terminates on every table of a well-formed guest heap once the fuel exceeds
the number of live tables; (iv) a guest table whose native pointer is
already in the `done` record yields the host object already being built for
it, so shared tables map to one host object. -/
theorem conversion_cycle_guard :
    (∀ (env : Env) (fuel : ℕ) (st : LuaState) (addr : ℕ) (v : JSValue),
      Env.validB env = true → JSValue.validInB env v = true →
      env.keySet.card < fuel →
      pushValueFuel env fuel st addr v PushOpts.none ≠ Res.fuelOut) ∧
    (∀ (env : Env) (fuel : ℕ) (st : LuaState) (addr : ℕ) (v : JSValue) (opts : PushOpts)
      (slot : ℕ),
      doneLookup opts.done (env.strCoerce v) = some slot →
      pushValueFuel env (fuel + 1) st addr v opts =
        Res.ok (st.push addr ((st.slotAt addr (slot : ℤ)).getD LuaValue.nil), opts.done)) ∧
    (∀ (fuel : ℕ) (st : LuaState) (tid : ℕ) (d : GetDone) (h : HostHeap),
      LuaState.wfB st = true → (st.tables.lookup tid).isSome →
      getMeasure st d < fuel →
      getHostVal fuel st LuaType.table (some (LuaValue.table tid)) ⟨false, false⟩ d h ≠
        Res.fuelOut) ∧
    (∀ (fuel : ℕ) (st : LuaState) (tid : ℕ) (d : GetDone) (h : HostHeap) (r : HostRes),
      d.lookup tid = some r →
      getHostVal (fuel + 1) st LuaType.table (some (LuaValue.table tid)) ⟨false, false⟩ d h =
        Res.ok (st, r, d, h)) := by
  refine ⟨?_, ?_, ?_, ?_⟩
  · intro env fuel st addr v h1 h2 h3
    apply push_adequate fuel env h1 st addr v PushOpts.none h2 rfl
    simpa [pushMeasure, doneKeys, PushOpts.none] using h3
  · intro env fuel st addr v opts slot hlook
    simp only [pushValueFuel, hlook]
  · intro fuel st tid d h hwf hsome hm
    apply get_adequate fuel st LuaType.table (some (LuaValue.table tid)) ⟨false, false⟩ d h hwf
      ?_ hm
    intro tid2 htid2
    have h2 : LuaValue.table tid = LuaValue.table tid2 := by injection htid2
    obtain rfl : tid = tid2 := by injection h2
    exact hsome
  · intro fuel st tid d h r hl
    have hl2 : List.lookup (luaTopointer (some (LuaValue.table tid))) d = some r := hl
    simp [getHostVal, hl2]

theorem conversion_cycle_guard_witness :
    (Env.validB envC6 = true ∧ JSValue.validInB envC6 (JSValue.obj 0) = true ∧
      envC6.keySet.card < 2 ∧
      pushValueFuel envC6 2 stdState 0 (JSValue.obj 0) PushOpts.none ≠ Res.fuelOut) ∧
    (doneLookup (some [("k", 3)]) (envC6.strCoerce (JSValue.obj 0)) = some 3 ∧
      pushValueFuel envC6 1 stdState 0 (JSValue.obj 0) ⟨some [("k", 3)], false, false, false⟩ =
        Res.ok (stdState.push 0 ((stdState.slotAt 0 (3 : ℤ)).getD LuaValue.nil),
          some [("k", 3)])) ∧
    (LuaState.wfB stC6 = true ∧ (stC6.tables.lookup 1).isSome ∧ getMeasure stC6 [] < 2 ∧
      getHostVal 2 stC6 LuaType.table (some (LuaValue.table 1)) ⟨false, false⟩ [] ⟨[], 0⟩ ≠
        Res.fuelOut) ∧
    (([(1, HostRes.objRef 7)] : GetDone).lookup 1 = some (HostRes.objRef 7) ∧
      getHostVal 1 stC6 LuaType.table (some (LuaValue.table 1)) ⟨false, false⟩
          [(1, HostRes.objRef 7)] ⟨[], 0⟩ =
        Res.ok (stC6, HostRes.objRef 7, [(1, HostRes.objRef 7)], ⟨[], 0⟩)) := by
  refine ⟨⟨by decide, by decide, by decide, ?_⟩, ⟨rfl, ?_⟩, ⟨by decide, by decide, by decide, ?_⟩,
    ⟨rfl, ?_⟩⟩
  · exact conversion_cycle_guard.1 envC6 2 stdState 0 (JSValue.obj 0) (by decide) (by decide)
      (by decide)
  · exact conversion_cycle_guard.2.1 envC6 0 stdState 0 (JSValue.obj 0)
      ⟨some [("k", 3)], false, false, false⟩ 3 rfl
  · exact conversion_cycle_guard.2.2.1 2 stC6 1 [] ⟨[], 0⟩ (by decide) (by decide) (by decide)
  · exact conversion_cycle_guard.2.2.2 0 stC6 1 [(1, HostRes.objRef 7)] ⟨[], 0⟩
      (HostRes.objRef 7) rfl

/-! ## C10 — net stack effect of one push -/

theorem children_threadFree {env : Env} (henv : Env.threadFreeB env = true) (oid : ℕ) :
    ∀ c ∈ ((env.objs.lookup oid).getD (ObjData.plain [])).children,
      JSValue.isThreadV c = false := by
  cases hlk : env.objs.lookup oid with
  | none => simp [ObjData.children]
  | some data =>
    intro c hc
    have hmem := lookup_mem_of_eq_some hlk
    unfold Env.threadFreeB at henv
    rw [List.all_eq_true] at henv
    have h2 := henv (oid, data) hmem
    rw [List.all_eq_true] at h2
    have h3 := h2 c (by simpa using hc)
    simpa using h3

/-- The object loop's net stack effect: each iteration pushes key and value
and `lua_settable` consumes both, so the loop leaves every stack exactly as
it found it, given the frame property for the recursive push at the loop's
fuel. -/
theorem pushObjAux_frame (env : Env) (fuel addr tableSlot : ℕ)
    (IH : ∀ (st0 : LuaState) (v0 : JSValue) (o0 : PushOpts) (st1 : LuaState)
      (d1 : Option DoneMap), JSValue.isThreadV v0 = false →
      pushValueFuel env fuel st0 addr v0 o0 = Res.ok (st1, d1) →
      (∃ w, st1.getStack addr = st0.getStack addr ++ [w]) ∧
      (∀ b, b ≠ addr → st1.getStack b = st0.getStack b) ∧
      (∀ id, (st0.tableAt id).isSome → (st1.tableAt id).isSome))
    (fields : List (String × JSValue)) :
    ∀ (st : LuaState) (d : DoneMap) (st2 : LuaState) (d2 : DoneMap),
      (∀ p ∈ fields, JSValue.isThreadV p.2 = false) →
      pushObjAux (pushValueFuel env fuel) addr tableSlot st fields d = Res.ok (st2, d2) →
      st2.getStack addr = st.getStack addr ∧
      (∀ b, b ≠ addr → st2.getStack b = st.getStack b) ∧
      (∀ id, (st.tableAt id).isSome → (st2.tableAt id).isSome) := by
  induction fields with
  | nil =>
    intro st d st2 d2 _ h
    rw [pushObjAux] at h
    cases h
    exact ⟨rfl, fun b _ => rfl, fun id hs => hs⟩
  | cons p rest ihf =>
    obtain ⟨k, v⟩ := p
    intro st d st2 d2 hthread h
    rw [pushObjAux] at h
    rw [Res.bind_eq_ok] at h
    obtain ⟨p1, h1, h⟩ := h
    rw [Res.bind_eq_ok] at h
    obtain ⟨p2, h2, h⟩ := h
    rw [Res.bind_eq_ok] at h
    obtain ⟨st3, h3, h⟩ := h
    obtain ⟨⟨w1, hw1⟩, hob1, hta1⟩ := IH st (JSValue.str k) PushOpts.none p1.1 p1.2 rfl
      (by exact h1)
    obtain ⟨⟨w2, hw2⟩, hob2, hta2⟩ := IH p1.1 v ⟨some d, false, false, false⟩ p2.1 p2.2
      (hthread (k, v) (List.mem_cons_self _ _)) (by exact h2)
    obtain ⟨hs3, hob3, hta3⟩ := lua_settable_ok_inv h3
    have hrestore : st3.getStack addr = st.getStack addr := by
      rw [hs3, hw2, hw1]
      have hlen : (st.getStack addr ++ [w1] ++ [w2]).length - 2 =
          (st.getStack addr).length := by simp
      rw [hlen, List.append_assoc]
      exact List.take_left _ _
    obtain ⟨hs4, hob4, hta4⟩ := ihf st3 (p2.2.getD d) st2 d2
      (fun q hq => hthread q (List.mem_cons_of_mem _ hq)) h
    refine ⟨by rw [hs4, hrestore], ?_, ?_⟩
    · intro b hb
      rw [hob4 b hb, hob3 b hb, hob2 b hb, hob1 b hb]
    · intro id hid
      exact hta4 id (hta3 id (hta2 id (hta1 id hid)))

/-- The array loop's net stack effect. -/
theorem pushArrayAux_frame (env : Env) (fuel addr tableSlot : ℕ)
    (IH : ∀ (st0 : LuaState) (v0 : JSValue) (o0 : PushOpts) (st1 : LuaState)
      (d1 : Option DoneMap), JSValue.isThreadV v0 = false →
      pushValueFuel env fuel st0 addr v0 o0 = Res.ok (st1, d1) →
      (∃ w, st1.getStack addr = st0.getStack addr ++ [w]) ∧
      (∀ b, b ≠ addr → st1.getStack b = st0.getStack b) ∧
      (∀ id, (st0.tableAt id).isSome → (st1.tableAt id).isSome))
    (elems : List JSValue) :
    ∀ (st : LuaState) (i : ℕ) (d : DoneMap) (st2 : LuaState) (d2 : DoneMap),
      (∀ c ∈ elems, JSValue.isThreadV c = false) →
      pushArrayAux (pushValueFuel env fuel) addr tableSlot st elems i d = Res.ok (st2, d2) →
      st2.getStack addr = st.getStack addr ∧
      (∀ b, b ≠ addr → st2.getStack b = st.getStack b) ∧
      (∀ id, (st.tableAt id).isSome → (st2.tableAt id).isSome) := by
  induction elems with
  | nil =>
    intro st i d st2 d2 _ h
    rw [pushArrayAux] at h
    cases h
    exact ⟨rfl, fun b _ => rfl, fun id hs => hs⟩
  | cons v rest ihf =>
    intro st i d st2 d2 hthread h
    rw [pushArrayAux] at h
    rw [Res.bind_eq_ok] at h
    obtain ⟨p1, h1, h⟩ := h
    rw [Res.bind_eq_ok] at h
    obtain ⟨p2, h2, h⟩ := h
    rw [Res.bind_eq_ok] at h
    obtain ⟨st3, h3, h⟩ := h
    obtain ⟨⟨w1, hw1⟩, hob1, hta1⟩ := IH st (JSValue.num (i + 1)) PushOpts.none p1.1 p1.2 rfl
      (by exact h1)
    obtain ⟨⟨w2, hw2⟩, hob2, hta2⟩ := IH p1.1 v ⟨some d, false, false, false⟩ p2.1 p2.2
      (hthread v (List.mem_cons_self _ _)) (by exact h2)
    obtain ⟨hs3, hob3, hta3⟩ := lua_settable_ok_inv h3
    have hrestore : st3.getStack addr = st.getStack addr := by
      rw [hs3, hw2, hw1]
      have hlen : (st.getStack addr ++ [w1] ++ [w2]).length - 2 =
          (st.getStack addr).length := by simp
      rw [hlen, List.append_assoc]
      exact List.take_left _ _
    obtain ⟨hs4, hob4, hta4⟩ := ihf st3 (i + 1) (p2.2.getD d) st2 d2
      (fun c hc => hthread c (List.mem_cons_of_mem _ hc)) h
    refine ⟨by rw [hs4, hrestore], ?_, ?_⟩
    · intro b hb
      rw [hob4 b hb, hob3 b hb, hob2 b hb, hob1 b hb]
    · intro id hid
      exact hta4 id (hta3 id (hta2 id (hta1 id hid)))

/-- The frame property of `pushValue` for non-`Thread` values on a
`Thread`-free host graph: one slot is appended to the pushing thread's
stack, all other stacks are untouched, and every live table stays live. -/
theorem push_frame : ∀ (fuel : ℕ) (env : Env), Env.threadFreeB env = true →
    ∀ (st : LuaState) (addr : ℕ) (v : JSValue) (opts : PushOpts) (st' : LuaState)
      (d' : Option DoneMap),
    JSValue.isThreadV v = false →
    pushValueFuel env fuel st addr v opts = Res.ok (st', d') →
    (∃ w, st'.getStack addr = st.getStack addr ++ [w]) ∧
    (∀ b, b ≠ addr → st'.getStack b = st.getStack b) ∧
    (∀ id, (st.tableAt id).isSome → (st'.tableAt id).isSome) := by
  intro fuel
  induction fuel with
  | zero =>
    intro env henv st addr v opts st' d' hv h
    simp only [pushValueFuel] at h
    exact absurd h (by simp)
  | succ fuel ih =>
    intro env henv st addr v opts st' d' hv h
    cases hdl : doneLookup opts.done (env.strCoerce v) with
    | some slot =>
      simp only [pushValueFuel, hdl] at h
      cases h
      exact ⟨⟨_, LuaState.getStack_push_self ..⟩,
        fun b hb => LuaState.getStack_push_other _ _ _ _ hb,
        fun id hs => by rw [tableAt_push]; exact hs⟩
    | none =>
      cases href : opts.reference with
      | true =>
        simp only [pushValueFuel, hdl] at h
        rw [if_pos href] at h
        rw [Res.bind_eq_ok] at h
        obtain ⟨st1, h1, h⟩ := h
        cases h
        obtain ⟨uid, hap, hob, hta⟩ := createAndPushJsReference_ok_inv h1
        exact ⟨⟨_, hap⟩, hob, hta⟩
      | false =>
        cases v with
        | undef =>
          simp only [pushValueFuel, hdl] at h
          rw [if_neg (by simp [href])] at h
          cases h
          exact ⟨⟨_, LuaState.getStack_push_self ..⟩,
            fun b hb => LuaState.getStack_push_other _ _ _ _ hb,
            fun id hs => by rw [tableAt_push]; exact hs⟩
        | jsNull =>
          simp only [pushValueFuel, hdl] at h
          rw [if_neg (by simp [href])] at h
          cases h
          exact ⟨⟨_, LuaState.getStack_push_self ..⟩,
            fun b hb => LuaState.getStack_push_other _ _ _ _ hb,
            fun id hs => by rw [tableAt_push]; exact hs⟩
        | num q =>
          simp only [pushValueFuel, hdl] at h
          rw [if_neg (by simp [href])] at h
          cases h
          exact ⟨⟨_, LuaState.getStack_push_self ..⟩,
            fun b hb => LuaState.getStack_push_other _ _ _ _ hb,
            fun id hs => by rw [tableAt_push]; exact hs⟩
        | str s =>
          simp only [pushValueFuel, hdl] at h
          rw [if_neg (by simp [href])] at h
          cases h
          exact ⟨⟨_, LuaState.getStack_push_self ..⟩,
            fun b hb => LuaState.getStack_push_other _ _ _ _ hb,
            fun id hs => by rw [tableAt_push]; exact hs⟩
        | boolean b0 =>
          simp only [pushValueFuel, hdl] at h
          rw [if_neg (by simp [href])] at h
          cases h
          exact ⟨⟨_, LuaState.getStack_push_self ..⟩,
            fun b hb => LuaState.getStack_push_other _ _ _ _ hb,
            fun id hs => by rw [tableAt_push]; exact hs⟩
        | threadV a => simp [JSValue.isThreadV] at hv
        | bigintV n =>
          simp only [pushValueFuel, hdl] at h
          rw [if_neg (by simp [href])] at h
          exact absurd h (by simp)
        | symbolV n =>
          simp only [pushValueFuel, hdl] at h
          rw [if_neg (by simp [href])] at h
          exact absurd h (by simp)
        | promiseV pid =>
          obtain ⟨-, ⟨uid, hap⟩, hob, hta⟩ := push_promise_inv hdl href h
          exact ⟨⟨_, hap⟩, hob, hta⟩
        | funcV fid =>
          obtain ⟨-, hap, hob, hta⟩ := push_func_inv hdl href h
          exact ⟨hap, hob, hta⟩
        | obj oid =>
          simp only [pushValueFuel, hdl] at h
          rw [if_neg (by simp [href])] at h
          have hch := children_threadFree henv oid
          cases hob : (env.objs.lookup oid).getD (ObjData.plain []) with
          | arr elems =>
            simp only [hob] at h
            rw [Res.bind_eq_ok] at h
            obtain ⟨p, hfold, h⟩ := h
            cases h
            rw [hob] at hch
            obtain ⟨hs, hob2, hta⟩ := pushArrayAux_frame env fuel addr (st.gettop addr + 1)
              (fun st0 v0 o0 s1 e1 hv0 h0 => ih env henv st0 addr v0 o0 s1 e1 hv0 h0)
              elems (st.lua_createtable addr) 0 _ p.1 p.2
              (fun c hc => hch c (by simpa [ObjData.children] using hc)) (by exact hfold)
            refine ⟨⟨LuaValue.table st.nextAddr, ?_⟩, ?_, ?_⟩
            · rw [hs, lua_createtable_getStack_self]
            · intro b hb
              rw [hob2 b hb, lua_createtable_getStack_other _ _ _ hb]
            · intro id hid
              exact hta id (lua_createtable_tableAt_isSome _ _ _ hid)
          | plain fields =>
            simp only [hob] at h
            rw [Res.bind_eq_ok] at h
            obtain ⟨p, hfold, h⟩ := h
            cases h
            rw [hob] at hch
            obtain ⟨hs, hob2, hta⟩ := pushObjAux_frame env fuel addr (st.gettop addr + 1)
              (fun st0 v0 o0 s1 e1 hv0 h0 => ih env henv st0 addr v0 o0 s1 e1 hv0 h0)
              fields (st.lua_createtable addr) _ p.1 p.2
              (fun q hq => hch q.2 (by
                simp only [ObjData.children, List.mem_map]
                exact ⟨q, hq, rfl⟩)) (by exact hfold)
            refine ⟨⟨LuaValue.table st.nextAddr, ?_⟩, ?_, ?_⟩
            · rw [hs, lua_createtable_getStack_self]
            · intro b hb
              rw [hob2 b hb, lua_createtable_getStack_other _ _ _ hb]
            · intro id hid
              exact hta id (lua_createtable_tableAt_isSome _ _ _ hid)

/-- C10 counterexample: a `Thread` host value is a supported type, yet
pushing it at default options leaves the pushing context's stack exactly as
it was — `lua_pushthread(target.address)` pushes onto the referenced
thread's own stack — so the pushing stack does not grow by one slot. -/
theorem pushValue_thread_counterexample :
    pushValueFuel stdEnv 1 stdState 0 (JSValue.threadV 2) PushOpts.none =
      Res.ok (stdState.push 2 (LuaValue.thread 2), Option.none) ∧
    (stdState.push 2 (LuaValue.thread 2)).getStack 0 = stdState.getStack 0 ∧
    (stdState.push 2 (LuaValue.thread 2)).getStack 2 =
      stdState.getStack 2 ++ [LuaValue.thread 2] := by
  refine ⟨rfl, rfl, rfl⟩

/-- C10 (amended): on a `Thread`-free host graph, a successful `pushValue`
of a non-`Thread` value — any branch: primitive, table (the loop's key and
value pushes are consumed by `lua_settable`), function (the reference
userdata is absorbed as the closure's upvalue), promise (the metatable push
is consumed by `lua_setmetatable`), done-hit and reference — leaves the
pushing thread's stack exactly one slot taller with the converted value on
top and every other stack unchanged; a `Thread` value, however, is pushed
onto the referenced thread's own stack, leaving the pushing context's stack
unchanged unless it is itself the target. -/
theorem pushValue_frame_amended :
    (∀ (env : Env) (fuel : ℕ) (st : LuaState) (addr : ℕ) (v : JSValue) (opts : PushOpts)
      (st' : LuaState) (d' : Option DoneMap),
      Env.threadFreeB env = true → JSValue.isThreadV v = false →
      pushValueFuel env fuel st addr v opts = Res.ok (st', d') →
      (∃ w, st'.getStack addr = st.getStack addr ++ [w]) ∧
      (∀ b, b ≠ addr → st'.getStack b = st.getStack b)) ∧
    (∀ (env : Env) (fuel : ℕ) (st : LuaState) (addr a : ℕ) (opts : PushOpts),
      doneLookup opts.done (env.strCoerce (JSValue.threadV a)) = Option.none →
      opts.reference = false →
      pushValueFuel env (fuel + 1) st addr (JSValue.threadV a) opts =
        Res.ok (st.push a (LuaValue.thread a), opts.done)) := by
  constructor
  · intro env fuel st addr v opts st' d' henv hv h
    obtain ⟨hap, hob, -⟩ := push_frame fuel env henv st addr v opts st' d' hv h
    exact ⟨hap, hob⟩
  · intro env fuel st addr a opts hdl href
    simp only [pushValueFuel, hdl]
    rw [if_neg (by simp [href])]

theorem pushValue_frame_amended_witness :
    (Env.threadFreeB stdEnv = true ∧
      JSValue.isThreadV (JSValue.boolean true) = false ∧
      pushValueFuel stdEnv 1 stdState 0 (JSValue.boolean true) PushOpts.none =
        Res.ok (stdState.push 0 (LuaValue.boolean true), Option.none) ∧
      (∃ w, (stdState.push 0 (LuaValue.boolean true)).getStack 0 =
        stdState.getStack 0 ++ [w]) ∧
      (∀ b, b ≠ 0 → (stdState.push 0 (LuaValue.boolean true)).getStack b =
        stdState.getStack b)) ∧
    (doneLookup PushOpts.none.done (stdEnv.strCoerce (JSValue.threadV 2)) = Option.none ∧
      PushOpts.none.reference = false ∧
      pushValueFuel stdEnv 3 stdState 0 (JSValue.threadV 2) PushOpts.none =
        Res.ok (stdState.push 2 (LuaValue.thread 2), PushOpts.none.done)) := by
  refine ⟨⟨by decide, rfl, rfl, ?_, ?_⟩, ⟨rfl, rfl, ?_⟩⟩
  · exact (pushValue_frame_amended.1 stdEnv 1 stdState 0 (JSValue.boolean true) PushOpts.none
      _ _ (by decide) rfl rfl).1
  · exact (pushValue_frame_amended.1 stdEnv 1 stdState 0 (JSValue.boolean true) PushOpts.none
      _ _ (by decide) rfl rfl).2
  · exact pushValue_frame_amended.2 stdEnv 2 stdState 0 2 PushOpts.none rfl rfl

/-! ## C1 — round-trip of primitive host values -/

/-- After pushing `w`, the new top slot (index old top + 1) resolves to
`w`. -/
theorem slotAt_after_push (st : LuaState) (addr : ℕ) (v : LuaValue) :
    (st.push addr v).slotAt addr ((st.gettop addr : ℤ) + 1) = some v := by
  have hst : (st.push addr v).getStack addr = st.getStack addr ++ [v] :=
    LuaState.getStack_push_self st addr v
  have h1 : ((st.gettop addr : ℤ) + 1).toNat = st.gettop addr + 1 := by omega
  simp only [LuaState.slotAt, hst]
  rw [if_pos (by omega : (0 : ℤ) < (st.gettop addr : ℤ) + 1), h1]
  show (st.getStack addr ++ [v]).get? (st.gettop addr + 1 - 1) = some v
  have h2 : st.gettop addr + 1 - 1 = (st.getStack addr).length := rfl
  rw [h2, List.get?_concat_length]

/-- Reading the new top slot dispatches `getValue` on the pushed value. -/
theorem getValueFuel_after_push (fuel : ℕ) (st : LuaState) (addr : ℕ) (w : LuaValue) :
    getValueFuel fuel (st.push addr w) addr ((st.gettop addr : ℤ) + 1) Option.none
      ⟨false, false⟩ [] ⟨[], 0⟩ =
    getHostVal fuel (st.push addr w) (luaTypeOf (some w)) (some w) ⟨false, false⟩ [] ⟨[], 0⟩ := by
  have hz : ((st.gettop addr : ℤ) + 1) ≠ 0 := by omega
  simp only [getValueFuel, if_neg hz, slotAt_after_push]

/-- C1 amended: `pushValue` followed by `getValue` at the pushed slot is the
identity on numbers (integral ones travelling as guest integers and
non-integral ones as guest floats), strings, booleans and `null`;
`undefined`, however, is pushed as guest nil exactly like `null`, so it
reads back as `null`, not `undefined`. -/
theorem primitive_roundtrip (env : Env) (fuel : ℕ) (st : LuaState) (addr : ℕ) (v : JSValue)
    (hv : v = JSValue.jsNull ∨ (∃ q, v = JSValue.num q) ∨ (∃ s, v = JSValue.str s) ∨
      (∃ b, v = JSValue.boolean b)) :
    ∃ st', pushValueFuel env (fuel + 1) st addr v PushOpts.none = Res.ok (st', Option.none) ∧
      getValueFuel (fuel + 1) st' addr ((st.gettop addr : ℤ) + 1) Option.none ⟨false, false⟩
        [] ⟨[], 0⟩ = Res.ok (st', reprHost v, [], ⟨[], 0⟩) := by
  rcases hv with rfl | ⟨q, rfl⟩ | ⟨s, rfl⟩ | ⟨b, rfl⟩
  · refine ⟨st.push addr LuaValue.nil, rfl, ?_⟩
    rw [getValueFuel_after_push]
    rfl
  · by_cases hint : q.isInt
    · refine ⟨st.push addr (LuaValue.integer q.num), ?_, ?_⟩
      · have hpush : pushValueFuel env (fuel + 1) st addr (JSValue.num q) PushOpts.none =
            Res.ok (st.push addr
              (if q.isInt then LuaValue.integer q.num else LuaValue.number q),
              Option.none) := rfl
        rw [hpush, if_pos hint]
      · rw [getValueFuel_after_push]
        show Res.ok (st.push addr (LuaValue.integer q.num), HostRes.num ((q.num : ℚ)), [],
            (⟨[], 0⟩ : HostHeap)) = _
        rw [← Rat.eq_num_of_isInt hint]
        rfl
    · refine ⟨st.push addr (LuaValue.number q), ?_, ?_⟩
      · have hpush : pushValueFuel env (fuel + 1) st addr (JSValue.num q) PushOpts.none =
            Res.ok (st.push addr
              (if q.isInt then LuaValue.integer q.num else LuaValue.number q),
              Option.none) := rfl
        rw [hpush, if_neg hint]
      · rw [getValueFuel_after_push]
        rfl
  · refine ⟨st.push addr (LuaValue.str s), rfl, ?_⟩
    rw [getValueFuel_after_push]
    rfl
  · refine ⟨st.push addr (LuaValue.boolean b), rfl, ?_⟩
    rw [getValueFuel_after_push]
    rfl

/-- Witness for the amended C1: the boolean `true` round-trips on the
standard root state. -/
theorem primitive_roundtrip_witness :
    ∃ st', pushValueFuel stdEnv 1 stdState 0 (JSValue.boolean true) PushOpts.none =
        Res.ok (st', Option.none) ∧
      getValueFuel 1 st' 0 ((stdState.gettop 0 : ℤ) + 1) Option.none ⟨false, false⟩ []
        ⟨[], 0⟩ = Res.ok (st', reprHost (JSValue.boolean true), [], ⟨[], 0⟩) :=
  primitive_roundtrip stdEnv 0 stdState 0 (JSValue.boolean true)
    (Or.inr (Or.inr (Or.inr ⟨true, rfl⟩)))

/-- C1 counterexample to the claim as stated: `undefined` (a primitive host
value) is pushed as guest nil and `getValue` maps nil back to `null`, which
is not equal to `undefined`. -/
theorem roundtrip_undefined_counterexample :
    pushValueFuel stdEnv 1 stdState 0 JSValue.undef PushOpts.none =
      Res.ok (stdState.push 0 LuaValue.nil, Option.none) ∧
    getValueFuel 1 (stdState.push 0 LuaValue.nil) 0 1 Option.none ⟨false, false⟩ [] ⟨[], 0⟩ =
      Res.ok (stdState.push 0 LuaValue.nil, HostRes.jsNull, [], ⟨[], 0⟩) ∧
    HostRes.jsNull ≠ reprHost JSValue.undef := by
  refine ⟨rfl, rfl, by decide⟩

/-! ## C2 — the memory ceiling of the allocator -/

/-- The allocator never touches the configured ceiling. -/
theorem allocatorFunction_memoryMax (stats : LuaMemoryStats) (p o n r : ℕ) :
    (allocatorFunction stats p o n r).1.memoryMax = stats.memoryMax := by
  simp only [allocatorFunction]
  split_ifs <;> rfl

/-- One well-classified request preserves `memoryUsed ≤ m`: a request the
allocator cannot classify as increasing (`pointer = 0` with
`0 < newSize ≤ oldSize`) is excluded by `hwf`. -/
theorem allocatorFunction_le {stats : LuaMemoryStats} {m : ℤ} (hm : stats.memoryMax = some m)
    (hm0 : 0 < m) (hu : stats.memoryUsed ≤ m) (p o n r : ℕ)
    (hwf : p = 0 → n = 0 ∨ o < n) :
    (allocatorFunction stats p o n r).1.memoryUsed ≤ m := by
  simp only [allocatorFunction, hm]
  split_ifs with h1 hp hc hr hc2 hr2
  · exact hu
  · exact hu
  · simp only [decide_eq_true_eq] at hc
    show stats.memoryUsed + ((n : ℤ) - (o : ℤ)) ≤ m
    omega
  · exact hu
  · exact hu
  · simp only [decide_eq_true_eq] at hc2
    show stats.memoryUsed + (n : ℤ) ≤ m
    omega
  · exact hu

/-- The invariant extends to whole request sequences. -/
theorem allocRun_le {m : ℤ} : ∀ (reqs : List (ℕ × ℕ × ℕ × ℕ)) (stats : LuaMemoryStats),
    stats.memoryMax = some m → 0 < m → stats.memoryUsed ≤ m →
    (∀ q ∈ reqs, q.1 = 0 → q.2.2.1 = 0 ∨ q.2.1 < q.2.2.1) →
    (allocRun stats reqs).memoryUsed ≤ m
  | [], _, _, _, hu, _ => hu
  | q :: rest, stats, hm, hm0, hu, hwf => by
    have hq := hwf q (List.mem_cons_self _ _)
    have hstep := allocatorFunction_le hm hm0 hu q.1 q.2.1 q.2.2.1 q.2.2.2 hq
    have hmax := allocatorFunction_memoryMax stats q.1 q.2.1 q.2.2.1 q.2.2.2
    simp only [allocRun, List.foldl_cons]
    exact allocRun_le rest _ (by rw [hmax, hm]) hm0 hstep
      (fun q' hq' => hwf q' (List.mem_cons_of_mem _ hq'))

/-- C2 counterexample to the claim as stated: at the ceiling `M = 10` with
tracked usage 10, the fresh-allocation request `(pointer = 0, oldSize = 5,
newSize = 3)` grows tracked usage beyond `M` (to 13), yet the allocator
classifies it as non-increasing (`Boolean(0) || 3 > 5` is false), skips the
ceiling test, returns the successful host pointer 99 instead of null, and
the tracked usage counter ends at 13 > 10. -/
theorem allocator_ceiling_bypass :
    allocatorFunction ⟨10, some 10⟩ 0 5 3 99 = (⟨13, some 10⟩, 99) ∧
    (10 : ℤ) < 10 + (3 : ℤ) ∧ (99 : ℕ) ≠ 0 ∧ (10 : ℤ) < 13 := by
  refine ⟨?_, by decide, by decide, by decide⟩
  rfl

/-- C2 amended: for a root whose ceiling is `some m`, `0 < m`, with tracked
usage within the ceiling —
1. every request the allocator classifies as increasing (`pointer ≠ 0` or
   `newSize > oldSize`, with a positive `newSize`) whose end usage would
   exceed `m` returns null with the stats unchanged;
2. over any request sequence whose fresh allocations (`pointer = 0`) are
   classified correctly (frees or genuine growths), the tracked usage never
   exceeds `m`;
3. a shrink of an existing block is never rejected by the ceiling test: its
   outcome is exactly the host realloc outcome;
4. a free returns before the ceiling test even runs. -/
theorem allocator_ceiling_amended (stats : LuaMemoryStats) (m : ℤ) (p o n r : ℕ)
    (reqs : List (ℕ × ℕ × ℕ × ℕ))
    (hm : stats.memoryMax = some m) (hm0 : 0 < m) (hu : stats.memoryUsed ≤ m) :
    ((p ≠ 0 ∨ o < n) → 0 < n →
      m < stats.memoryUsed + (if p ≠ 0 then (n : ℤ) - (o : ℤ) else (n : ℤ)) →
      allocatorFunction stats p o n r = (stats, 0)) ∧
    ((∀ q ∈ reqs, q.1 = 0 → q.2.2.1 = 0 ∨ q.2.1 < q.2.2.1) →
      (allocRun stats reqs).memoryUsed ≤ m) ∧
    (p ≠ 0 → 0 < n → n ≤ o →
      allocatorFunction stats p o n r =
        if r ≠ 0 then
          ({ stats with memoryUsed := stats.memoryUsed + ((n : ℤ) - (o : ℤ)) }, r)
        else (stats, 0)) ∧
    (p ≠ 0 → allocatorFunction stats p o 0 r = (stats, 0)) := by
  refine ⟨?_, ?_, ?_, ?_⟩
  · intro hgrow hn hover
    simp only [allocatorFunction, hm]
    rw [if_neg (show ¬(n = 0 ∧ p ≠ 0) by omega),
      if_pos ⟨decide_eq_true hgrow, decide_eq_true ⟨by omega, hover⟩⟩]
  · intro hwf
    exact allocRun_le reqs stats hm hm0 hu hwf
  · intro hp hn hshrink
    have hnot : ¬(decide (p ≠ 0 ∨ o < n) = true ∧
        decide (m ≠ 0 ∧ m < stats.memoryUsed + ((n : ℤ) - (o : ℤ))) = true) := by
      rintro ⟨-, hB⟩
      have := of_decide_eq_true hB
      omega
    simp only [allocatorFunction, hm, if_pos hp]
    rw [if_neg (show ¬(n = 0 ∧ p ≠ 0) by omega), if_neg hnot]
  · intro hp
    simp [allocatorFunction, hp]

/-- Witness for the amended C2 on concrete requests: a rejected oversized
growth, a bounded run, an accepted shrink, a free. -/
theorem allocator_ceiling_amended_witness :
    allocatorFunction ⟨5, some 10⟩ 1 0 20 7 = (⟨5, some 10⟩, 0) ∧
    (allocRun ⟨5, some 10⟩ [(1, 0, 2, 9), (0, 0, 3, 8)]).memoryUsed ≤ 10 ∧
    allocatorFunction ⟨5, some 10⟩ 1 5 2 7 =
      (if (7 : ℕ) ≠ 0 then
        ({ (⟨5, some 10⟩ : LuaMemoryStats) with memoryUsed := (5 : ℤ) + ((2 : ℤ) - (5 : ℤ)) }, 7)
       else (⟨5, some 10⟩, 0)) ∧
    allocatorFunction ⟨5, some 10⟩ 1 5 0 7 = (⟨5, some 10⟩, 0) :=
  ⟨(allocator_ceiling_amended ⟨5, some 10⟩ 10 1 0 20 7 [] rfl (by decide) (by decide)).1
      (by decide) (by decide) (by decide),
    (allocator_ceiling_amended ⟨5, some 10⟩ 10 1 0 20 7 [(1, 0, 2, 9), (0, 0, 3, 8)] rfl
      (by decide) (by decide)).2.1 (by decide),
    (allocator_ceiling_amended ⟨5, some 10⟩ 10 1 5 2 7 [] rfl (by decide) (by decide)).2.2.1
      (by decide) (by decide) (by decide),
    (allocator_ceiling_amended ⟨5, some 10⟩ 10 1 5 0 7 [] rfl (by decide) (by decide)).2.2.2
      (by decide)⟩

/-! ## C3 — at most one outstanding continuation per context -/

/-- The invariant is preserved by every continuation event. -/
theorem contStep_good {s : ContState} (hs : ContGood s) (e : ContEvent) :
    ContGood (contStep s e) := by
  obtain ⟨cont, live, next⟩ := s
  cases cont with
  | none =>
    have hlive : live = [] := hs
    subst hlive
    cases e with
    | install => exact ⟨rfl, Nat.lt_succ_self _⟩
    | fire ctx => simp [contStep, ContGood]
    | reset => exact hs
  | some c =>
    obtain ⟨hlive, hlt⟩ := hs
    subst hlive
    cases e with
    | install =>
      refine ⟨?_, Nat.lt_succ_self _⟩
      simp [contStep, List.erase_cons_head]
    | fire ctx =>
      by_cases hmem : ctx ∈ [c]
      · have hc : ctx = c := by simpa using hmem
        subst hc
        simp [contStep, ContGood, List.erase_cons_head]
      · simp only [contStep, if_neg hmem]
        exact ⟨rfl, hlt⟩
    | reset => simp [contStep, ContGood, List.erase_cons_head]

/-- The invariant holds from any good start across any event history. -/
theorem contFoldl_good : ∀ (evs : List ContEvent) (s : ContState), ContGood s →
    ContGood (evs.foldl contStep s)
  | [], _, h => h
  | e :: rest, s, h => contFoldl_good rest (contStep s e) (contStep_good h e)

/-- C3: across every event history of an Execution Context — installs of new
continuations by pushed host async functions, continuation invocations by
the VM, thread resets — at most one continuation callable is registered at
any time; and an install finding a prior unconsumed handle removes that
handle's callable (it is no longer live) before storing the fresh one, which
becomes the only live one. -/
theorem continuation_at_most_one :
    (∀ evs : List ContEvent, ContGood (contRun evs) ∧ (contRun evs).live.length ≤ 1) ∧
    (∀ (s : ContState) (c : ℕ), ContGood s → s.continuance = some c →
      (contStep s ContEvent.install).continuance = some s.next ∧
      c ∉ (contStep s ContEvent.install).live ∧
      (contStep s ContEvent.install).live = [s.next]) := by
  constructor
  · intro evs
    have hgood : ContGood (contRun evs) := contFoldl_good evs contInit rfl
    refine ⟨hgood, ?_⟩
    rcases hc : (contRun evs).continuance with _ | c
    · have : (contRun evs).live = [] := by
        have := hgood
        unfold ContGood at this
        rw [hc] at this
        exact this
      simp [this]
    · have : (contRun evs).live = [c] := by
        have := hgood
        unfold ContGood at this
        rw [hc] at this
        exact this.1
      simp [this]
  · intro s c hs hc
    obtain ⟨cont, live, next⟩ := s
    cases hc
    obtain ⟨hlive, hlt⟩ := hs
    subst hlive
    refine ⟨rfl, ?_, ?_⟩
    · simp only [contStep, List.erase_cons_head, List.mem_singleton]
      show ¬ c = next
      have hlt' : c < next := hlt
      omega
    · simp [contStep, List.erase_cons_head]

/-- Witness for C3: a history with repeated never-consumed installs, and a
concrete install over a pending handle. -/
theorem continuation_at_most_one_witness :
    (ContGood (contRun [ContEvent.install, ContEvent.install, ContEvent.fire 1,
        ContEvent.reset]) ∧
      (contRun [ContEvent.install, ContEvent.install, ContEvent.fire 1,
        ContEvent.reset]).live.length ≤ 1) ∧
    ((contStep ⟨some 0, [0], 1⟩ ContEvent.install).continuance = some 1 ∧
      0 ∉ (contStep ⟨some 0, [0], 1⟩ ContEvent.install).live ∧
      (contStep ⟨some 0, [0], 1⟩ ContEvent.install).live = [1]) :=
  ⟨continuation_at_most_one.1 [ContEvent.install, ContEvent.install, ContEvent.fire 1,
      ContEvent.reset],
    continuation_at_most_one.2 ⟨some 0, [0], 1⟩ 0 ⟨rfl, Nat.zero_lt_one⟩ rfl⟩

end Wasmoon
